import Mathlib

/-!
Verification development for the `serp` search-results aggregation engine
(`src/serp-api-aggregator/src/serp/`).  The Python source is shallowly
embedded: pure fragments become Lean functions, the stateful scheduler /
rate-limiter / cache code becomes explicit state passing, Python floats are
modelled as exact rationals (`ℚ`, with Python's banker's rounding modelled by
`roundHalfEven`), and Python machine behaviour that can raise becomes
`Except` / sum types.
-/

namespace Serp

open List

/-! ### SHA-256 (used by `cache.generate_cache_key`)

`cache.py` computes `hashlib.sha256(key_data.encode()).hexdigest()[:32]`.
We embed SHA-256 over byte lists (`Nat` values < 256), with 32-bit words as
`Nat` reduced mod `2^32`. -/

/-- Reduce a natural number to a 32-bit word. -/
def w32 (n : Nat) : Nat := n % 4294967296

/-- Right rotation of a 32-bit word. -/
def rotr (n k : Nat) : Nat := w32 ((n >>> k) ||| (n <<< (32 - k)))

/-- The 64 SHA-256 round constants (fractional bits of cube roots of the
first 64 primes). -/
def shaK : List Nat :=
  [1116352408, 1899447441, 3049323471, 3921009573, 961987163, 1508970993,
   2453635748, 2870763221, 3624381080, 310598401, 607225278, 1426881987,
   1925078388, 2162078206, 2614888103, 3248222580, 3835390401, 4022224774,
   264347078, 604807628, 770255983, 1249150122, 1555081692, 1996064986,
   2554220882, 2821834349, 2952996808, 3210313671, 3336571891, 3584528711,
   113926993, 338241895, 666307205, 773529912, 1294757372, 1396182291,
   1695183700, 1986661051, 2177026350, 2456956037, 2730485921, 2820302411,
   3259730800, 3345764771, 3516065817, 3600352804, 4094571909, 275423344,
   430227734, 506948616, 659060556, 883997877, 958139571, 1322822218,
   1537002063, 1747873779, 1955562222, 2024104815, 2227730452, 2361852424,
   2428436474, 2756734187, 3204031479, 3329325298]

/-- SHA-256 working state (eight 32-bit words). -/
structure Hash8 where
  a : Nat
  b : Nat
  c : Nat
  d : Nat
  e : Nat
  f : Nat
  g : Nat
  h : Nat
deriving DecidableEq

/-- Initial SHA-256 hash value (fractional bits of square roots of the first
eight primes). -/
def shaH0 : Hash8 :=
  ⟨1779033703, 3144134277, 1013904242, 2773480762,
   1359893119, 2600822924, 528734635, 1541459225⟩

/-- Extend the 16-word message schedule; `ws` holds the schedule so far in
reverse order (most recent word first). -/
def extendW : Nat → List Nat → List Nat
  | 0, ws => ws
  | fuel + 1, ws =>
    let x15 := ws.getD 14 0
    let x2 := ws.getD 1 0
    let s0 := rotr x15 7 ^^^ rotr x15 18 ^^^ (x15 >>> 3)
    let s1 := rotr x2 17 ^^^ rotr x2 19 ^^^ (x2 >>> 10)
    extendW fuel (w32 (ws.getD 15 0 + s0 + ws.getD 6 0 + s1) :: ws)

/-- Full 64-word message schedule from a 16-word block. -/
def schedule (block16 : List Nat) : List Nat :=
  (extendW 48 block16.reverse).reverse

/-- One SHA-256 compression round. -/
def shaRound (st : Hash8) (k w : Nat) : Hash8 :=
  let bigS1 := rotr st.e 6 ^^^ rotr st.e 11 ^^^ rotr st.e 25
  let ch := (st.e &&& st.f) ^^^ ((st.e ^^^ 4294967295) &&& st.g)
  let t1 := w32 (st.h + bigS1 + ch + k + w)
  let bigS0 := rotr st.a 2 ^^^ rotr st.a 13 ^^^ rotr st.a 22
  let maj := (st.a &&& st.b) ^^^ (st.a &&& st.c) ^^^ (st.b &&& st.c)
  let t2 := w32 (bigS0 + maj)
  ⟨w32 (t1 + t2), st.a, st.b, st.c, w32 (st.d + t1), st.e, st.f, st.g⟩

/-- Compress one 512-bit block (sixteen 32-bit words) into the hash state. -/
def compressBlock (h : Hash8) (block16 : List Nat) : Hash8 :=
  let st := ((shaK.zip (schedule block16)).foldl
    (fun st kw => shaRound st kw.1 kw.2) h)
  ⟨w32 (h.a + st.a), w32 (h.b + st.b), w32 (h.c + st.c), w32 (h.d + st.d),
   w32 (h.e + st.e), w32 (h.f + st.f), w32 (h.g + st.g), w32 (h.h + st.h)⟩

/-- Group a byte list into big-endian 32-bit words. -/
def toWords : List Nat → List Nat
  | b0 :: b1 :: b2 :: b3 :: rest =>
    ((((b0 <<< 8) ||| b1) <<< 8 ||| b2) <<< 8 ||| b3) :: toWords rest
  | _ => []

/-- Split a byte list into 64-byte chunks (structural recursion on a fuel
bound so the definition reduces in the kernel). -/
def chunk64Aux : Nat → List Nat → List (List Nat)
  | 0, _ => []
  | _, [] => []
  | fuel + 1, x :: rest => (x :: rest.take 63) :: chunk64Aux fuel (rest.drop 63)

/-- Split a byte list into 64-byte chunks. -/
def chunk64 (l : List Nat) : List (List Nat) := chunk64Aux l.length l

/-- Big-endian 8-byte encoding of a length value. -/
def lenBytes8 (n : Nat) : List Nat :=
  (List.range 8).map (fun i => (n >>> (56 - 8 * i)) &&& 255)

/-- SHA-256 message padding: append `0x80`, zero bytes up to 56 mod 64, then
the bit length as 8 big-endian bytes. -/
def padMsg (msg : List Nat) : List Nat :=
  let padLen := (119 - msg.length % 64) % 64
  msg ++ [128] ++ List.replicate padLen 0 ++ lenBytes8 (8 * msg.length)

/-- SHA-256 of a byte list, as eight 32-bit words. -/
def sha256Words (msg : List Nat) : List Nat :=
  let hs := (chunk64 (padMsg msg)).foldl
    (fun h b => compressBlock h (toWords b)) shaH0
  [hs.a, hs.b, hs.c, hs.d, hs.e, hs.f, hs.g, hs.h]

/-- Lowercase hex digit for a value < 16. -/
def hexDigit (n : Nat) : Char :=
  if n < 10 then Char.ofNat (48 + n) else Char.ofNat (87 + n)

/-- Lowercase 8-hex-digit rendering of a 32-bit word. -/
def wordHex (n : Nat) : List Char :=
  (List.range 8).map (fun i => hexDigit ((n >>> (28 - 4 * i)) &&& 15))

/-- Hex digest of a byte list (the Python `hexdigest()`). -/
def sha256Hex (msg : List Nat) : String :=
  String.mk ((sha256Words msg).flatMap wordHex)

/-- UTF-8 encoding of one Unicode code point. -/
def utf8Bytes (c : Char) : List Nat :=
  let n := c.toNat
  if n < 128 then [n]
  else if n < 2048 then [192 ||| (n >>> 6), 128 ||| (n &&& 63)]
  else if n < 65536 then
    [224 ||| (n >>> 12), 128 ||| ((n >>> 6) &&& 63), 128 ||| (n &&& 63)]
  else
    [240 ||| (n >>> 18), 128 ||| ((n >>> 12) &&& 63),
     128 ||| ((n >>> 6) &&& 63), 128 ||| (n &&& 63)]

/-- UTF-8 bytes of a string (the Python `str.encode()`). -/
def strBytes (s : String) : List Nat := s.data.flatMap utf8Bytes

/-- The pre-hash key data string of `cache.generate_cache_key`:
`f"{query}|{country}|{language}|{max_pages}"`. -/
def keyData (query country language : String) (maxPages : Int) : String :=
  query ++ "|" ++ country ++ "|" ++ language ++ "|" ++ toString maxPages

/-- Embedding of `cache.generate_cache_key`: SHA-256 of the raw key data,
truncated to the first 32 hex characters. -/
def generate_cache_key (query country language : String)
    (maxPages : Int) : String :=
  (sha256Hex (strBytes (keyData query country language maxPages))).take 32

-- Sanity check of the SHA-256 embedding against the standard test vector
-- for "abc".
set_option maxRecDepth 40000 in
example :
    sha256Hex (strBytes "abc") =
      "ba7816bf8f01cfea414140de5dae2223b00361a396177a9cb410ff61f20015ad" := by
  decide

/-! ### Rounding (Python `round(x, 2)` on the average position)

Python's `round` uses round-half-to-even.  Floats are modelled as exact
rationals; `round(x, 2)` becomes `roundHalfEven (x * 100) / 100`. -/

/-- Round a rational to the nearest integer, ties to the even integer
(Python's `round`). -/
def roundHalfEven (q : ℚ) : ℤ :=
  let f := ⌊q⌋
  let r := q - (f : ℚ)
  if r < 1 / 2 then f
  else if 1 / 2 < r then f + 1
  else if f % 2 = 0 then f else f + 1

/-- The Python expression `round(q, 2)` over exact rationals. -/
def pyRound2 (q : ℚ) : ℚ := ((roundHalfEven (q * 100) : ℚ)) / 100

/-! ### Data model of the page-merge loop (`_internal/bright_data.py`,
`fetch_all_pages`) -/

/-- One upstream organic item as consumed by the merge loop:
`result.get("link", "")`, `result.get("title", "")`,
`result.get("description")`, `result.get("rank", 0)`.  A missing `link` key
is represented by the empty string, exactly as `.get("link", "")` yields. -/
structure OrganicItem where
  link : String
  title : String
  description : Option String
  rank : Int
deriving DecidableEq

/-- One upstream page response dict.  `organic` is `response.get("organic",
[])`; `extra` records whether the dict has at least one key when the organic
list is empty, so that Python's truthiness test `elif response:` (an empty
dict `{}` is falsy) can be modelled faithfully. -/
structure PageResponse where
  organic : List OrganicItem
  extra : Bool
deriving DecidableEq

/-- Python truthiness of the response dict: a dict holding a nonempty
`organic` list is nonempty, otherwise `extra` tells whether any key exists. -/
def PageResponse.truthy (r : PageResponse) : Bool :=
  !r.organic.isEmpty || r.extra

/-- One completion of a `fetch_page` task: `(page, response, None)` on
success or `(page, None, str(e))` on error. -/
inductive Completion
  | ok (page : Nat) (resp : PageResponse)
  | err (page : Nat) (msg : String)
deriving DecidableEq

/-- Page number of a completion. -/
def Completion.pageNum : Completion → Nat
  | .ok p _ => p
  | .err p _ => p

/-- One value of the `organic_by_url` dict: link/rank/title/description are
captured at first sight of the URL; `positions` and `pages` accumulate one
entry per sighting. -/
structure MergeEntry where
  link : String
  rank : Int
  title : String
  description : Option String
  positions : List Int
  pages : List Nat
deriving DecidableEq

/-- Merge one organic item into the dedup map (the body of the
`for result in organic:` loop).  The map is an insertion-ordered association
list, exactly like a Python dict: a new URL is appended at the end, an
existing URL is updated in place. -/
def insertItem (page : Nat) (m : List MergeEntry) (it : OrganicItem) :
    List MergeEntry :=
  if it.link = "" then m
  else if m.any (fun e => e.link = it.link) then
    m.map (fun e =>
      if e.link = it.link then
        { e with positions := e.positions ++ [it.rank],
                 pages := e.pages ++ [page] }
      else e)
  else
    m ++ [{ link := it.link, rank := it.rank, title := it.title,
            description := it.description, positions := [it.rank],
            pages := [page] }]

/-- Merge a whole page's organic list into the dedup map. -/
def mergePage (m : List MergeEntry) (page : Nat)
    (items : List OrganicItem) : List MergeEntry :=
  items.foldl (insertItem page) m

/-- The mutable state of the completion-consumption loop in
`fetch_all_pages` (the fields the organic claims depend on; the first
response's metadata and pagination sets are not modelled). -/
structure LoopState where
  organicByUrl : List MergeEntry
  errors : List String
  consecutiveEmpty : Nat
  pagesFetched : Nat
deriving DecidableEq

/-- Initial loop state. -/
def initState : LoopState := ⟨[], [], 0, 0⟩

/-- Process one completion (the body of the `for coro in
asyncio.as_completed(tasks):` loop, minus the early-termination check). -/
def stepCompletion (s : LoopState) (c : Completion) : LoopState :=
  match c with
  | .err page msg =>
    { s with pagesFetched := s.pagesFetched + 1,
             errors := s.errors ++
               ["Page " ++ toString page ++ ": " ++ msg],
             consecutiveEmpty := s.consecutiveEmpty + 1 }
  | .ok page r =>
    let s1 := { s with pagesFetched := s.pagesFetched + 1 }
    if r.truthy then
      if r.organic.isEmpty then
        { s1 with consecutiveEmpty := s1.consecutiveEmpty + 1 }
      else
        { s1 with consecutiveEmpty := 0,
                  organicByUrl := mergePage s1.organicByUrl page r.organic }
    else s1

/-- Consume completions in completion order, stopping (cancelling the rest)
as soon as `consecutive_empty >= consecutive_empty_limit`. -/
def consumeCompletions (limit : Nat) :
    List Completion → LoopState → LoopState
  | [], s => s
  | c :: cs, s =>
    let s1 := stepCompletion s c
    if limit ≤ s1.consecutiveEmpty then s1
    else consumeCompletions limit cs s1

/-- Minimum of a list of integers (Python `min(positions)`; the argument is
nonempty in every reachable state, `0` is a junk value for `[]`). -/
def listMinInt : List Int → Int
  | [] => 0
  | x :: xs => xs.foldl min x

/-- A finalized organic result (`models.OrganicResult`), with
`avg_position` as an exact rational. -/
structure OrganicResult where
  link : String
  title : String
  description : Option String
  rank : Int
  best_position : Int
  avg_position : ℚ
  frequency : Nat
  pages_seen : List Nat
deriving DecidableEq

/-- Finalize one dedup-map entry (`OrganicResult(...)` construction in
`fetch_all_pages`): `best_position = min(positions)`,
`avg_position = round(sum(positions)/len(positions), 2)`,
`frequency = len(positions)`, `pages_seen = sorted(set(pages))`. -/
def finalizeEntry (e : MergeEntry) : OrganicResult :=
  { link := e.link, title := e.title, description := e.description,
    rank := e.rank,
    best_position := listMinInt e.positions,
    avg_position := pyRound2 ((e.positions.sum : ℚ) /
      (e.positions.length : ℚ)),
    frequency := e.positions.length,
    pages_seen := e.pages.dedup.insertionSort (· ≤ ·) }

/-- Stable insertion of `x` after all list elements whose `best_position`
does not exceed `x`'s.  On a sorted list this realizes one step of a stable
sort by `best_position`. -/
def insertAfterLE (x : OrganicResult) :
    List OrganicResult → List OrganicResult
  | [] => [x]
  | y :: ys =>
    if y.best_position ≤ x.best_position then y :: insertAfterLE x ys
    else x :: y :: ys

/-- Stable sort by ascending `best_position`
(`organic_results.sort(key=lambda x: x.best_position)`; Python's list sort
is stable, and a stable sort by a key is unique, so stable insertion sort is
an exact model). -/
def sortByBest (l : List OrganicResult) : List OrganicResult :=
  l.foldl (fun acc x => insertAfterLE x acc) []

/-- The slice of `models.SearchResult` the claims are about. -/
structure SearchResultM where
  organic : List OrganicResult
  pagesFetched : Nat
  errors : List String
deriving DecidableEq

/-- The `SearchResult.has_errors` property: `len(self.errors) > 0`. -/
def SearchResultM.hasErrors (r : SearchResultM) : Bool :=
  !r.errors.isEmpty

/-- The organic part of `fetch_all_pages` as a function of the list of task
completions in completion order: consume (with early termination), finalize
every dedup-map entry in insertion order, and stable-sort by
`best_position`. -/
def fetchAllPagesModel (limit : Nat) (cs : List Completion) : SearchResultM :=
  let s := consumeCompletions limit cs initState
  { organic := sortByBest (s.organicByUrl.map finalizeEntry),
    pagesFetched := s.pagesFetched,
    errors := s.errors }

/-! ### Analysis functions for the merge (used to state theorems) -/

/-- The occurrences of a URL contributed by one completion, in upstream
order: pairs of (page number, organic item). -/
def pageOccs (url : String) (c : Completion) : List (Nat × OrganicItem) :=
  match c with
  | .err _ _ => []
  | .ok page r =>
    if r.organic.isEmpty then []
    else (r.organic.filter (fun it => it.link = url)).map
      (fun it => (page, it))

/-- All occurrences of a URL across a completion list, in consumption
order. -/
def occurrences (url : String) (cs : List Completion) :
    List (Nat × OrganicItem) :=
  cs.flatMap (pageOccs url)

/-- The dedup-map entry a URL ends up with, as a function of its occurrence
list (first occurrence fixes link/rank/title/description; every occurrence
appends to positions/pages). -/
def entryOf (url : String) :
    List (Nat × OrganicItem) → Option MergeEntry
  | [] => none
  | (p, it) :: rest =>
    some { link := url, rank := it.rank, title := it.title,
           description := it.description,
           positions := it.rank :: rest.map (fun o => o.2.rank),
           pages := p :: rest.map (fun o => o.1) }

/-- Extend an already-present dedup-map entry by a list of further
occurrences. -/
def extendEntry (e : MergeEntry) (os : List (Nat × OrganicItem)) :
    MergeEntry :=
  { e with positions := e.positions ++ os.map (fun o => o.2.rank),
           pages := e.pages ++ os.map (fun o => o.1) }

/-- Combine an optional existing entry for `url` with further
occurrences. -/
def combineEntry (url : String) (x : Option MergeEntry)
    (os : List (Nat × OrganicItem)) : Option MergeEntry :=
  match x with
  | some e => some (extendEntry e os)
  | none => entryOf url os

/-- Lookup of a URL in the dedup map (`url in organic_by_url` /
`organic_by_url[url]`). -/
def lookupUrl (url : String) (m : List MergeEntry) : Option MergeEntry :=
  m.find? (fun e => e.link = url)

/-- The per-URL aggregate fields of a search result: best position, average
position, frequency and pages seen for a given link, if present. -/
def aggregatesOf (r : SearchResultM) (url : String) :
    Option (Int × ℚ × Nat × List Nat) :=
  (r.organic.find? (fun o => o.link = url)).map
    (fun o => (o.best_position, o.avg_position, o.frequency, o.pages_seen))

/-- A completion that merges data: a success whose organic list is
nonempty. -/
def okNonempty : Completion → Prop
  | .ok _ r => r.organic ≠ []
  | .err _ _ => False

instance : DecidablePred okNonempty := fun c => by
  cases c with
  | ok p r => exact inferInstanceAs (Decidable (r.organic ≠ []))
  | err p m => exact inferInstanceAs (Decidable False)

/-! ### Adaptive rate limiter with circuit breaker (`rate_limiter.py`)

The `AdaptiveRateLimiter` dataclass is embedded as a pure state machine;
`time.monotonic()` becomes an explicit `now : ℚ` argument (the two reads of
the clock inside one `acquire` call are identified), and `asyncio.sleep`
inside `acquire` is reported as a wait duration in the call's outcome. -/

/-- Circuit breaker states (`CircuitState`); `opened` is the Python
`OPEN`. -/
inductive CircuitStateM
  | closed
  | opened
  | halfOpen
deriving DecidableEq

/-- Configuration fields of `AdaptiveRateLimiter`. -/
structure LimiterConfig where
  initialRps : ℚ := 5
  minRps : ℚ := 1 / 2
  maxRps : ℚ := 20
  burstSize : Nat := 10
  errorThreshold : Nat := 5
  recoveryTimeout : ℚ := 30
  successThreshold : Nat := 3
deriving DecidableEq

/-- The statistics fields `AdaptiveRateLimiter` updates
(`RateLimiterStats`). -/
structure LimiterStats where
  requestsTotal : Nat := 0
  requestsAllowed : Nat := 0
  requestsThrottled : Nat := 0
  rateLimitHits : Nat := 0
  errorsTotal : Nat := 0
  circuitOpens : Nat := 0
deriving DecidableEq

/-- Mutable state of `AdaptiveRateLimiter`. -/
structure LimiterState where
  circuitState : CircuitStateM := .closed
  consecutiveErrors : Nat := 0
  consecutiveSuccesses : Nat := 0
  circuitOpenedAt : ℚ := 0
  currentRps : ℚ
  tokens : ℚ
  lastUpdate : ℚ
  stats : LimiterStats := {}
deriving DecidableEq

/-- `__post_init__`: fresh limiter state at time `now`. -/
def LimiterState.init (cfg : LimiterConfig) (now : ℚ) : LimiterState :=
  { currentRps := cfg.initialRps, tokens := (cfg.burstSize : ℚ),
    lastUpdate := now }

/-- Outcome of `acquire`: a raised circuit-open error, or a grant (with the
slept duration, if the token bucket was empty). -/
inductive AcquireOutcome
  | rejected
  | granted (waited : Option ℚ)
deriving DecidableEq

/-- Token-bucket refill and spend (the second half of
`AdaptiveRateLimiter.acquire`): refill from elapsed time capped at
`burst_size`, then either spend a token or sleep `(1 - tokens) /
current_rps` and zero the bucket. -/
def acquireTokens (cfg : LimiterConfig) (now : ℚ) (s : LimiterState) :
    AcquireOutcome × LimiterState :=
  let tokens := min (cfg.burstSize : ℚ)
    (s.tokens + (now - s.lastUpdate) * s.currentRps)
  let s := { s with tokens := tokens, lastUpdate := now }
  if tokens < 1 then
    let stats1 := { s.stats with
      requestsThrottled := s.stats.requestsThrottled + 1 }
    (.granted (some ((1 - tokens) / s.currentRps)),
     { s with tokens := 0,
              stats := { stats1 with
                requestsAllowed := stats1.requestsAllowed + 1 } })
  else
    (.granted none,
     { s with tokens := tokens - 1,
              stats := { s.stats with
                requestsAllowed := s.stats.requestsAllowed + 1 } })

/-- `AdaptiveRateLimiter.acquire` at time `now`. -/
def acquire (cfg : LimiterConfig) (now : ℚ) (s : LimiterState) :
    AcquireOutcome × LimiterState :=
  let s := { s with stats := { s.stats with
    requestsTotal := s.stats.requestsTotal + 1 } }
  match s.circuitState with
  | .opened =>
    if now - s.circuitOpenedAt > cfg.recoveryTimeout then
      acquireTokens cfg now
        { s with circuitState := .halfOpen, consecutiveSuccesses := 0 }
    else
      (.rejected, { s with stats := { s.stats with
        requestsThrottled := s.stats.requestsThrottled + 1 } })
  | .closed => acquireTokens cfg now s
  | .halfOpen => acquireTokens cfg now s

/-- `AdaptiveRateLimiter._check_circuit` at time `now`. -/
def checkCircuit (cfg : LimiterConfig) (now : ℚ) (s : LimiterState) :
    LimiterState :=
  if cfg.errorThreshold ≤ s.consecutiveErrors then
    if s.circuitState ≠ .opened then
      { s with circuitState := .opened, circuitOpenedAt := now,
               stats := { s.stats with
                 circuitOpens := s.stats.circuitOpens + 1 } }
    else s
  else s

/-- `AdaptiveRateLimiter.on_success`. -/
def onSuccess (cfg : LimiterConfig) (s : LimiterState) : LimiterState :=
  let s := { s with consecutiveErrors := 0,
                    consecutiveSuccesses := s.consecutiveSuccesses + 1 }
  let s :=
    if s.circuitState = .halfOpen ∧
        cfg.successThreshold ≤ s.consecutiveSuccesses then
      { s with circuitState := .closed, consecutiveSuccesses := 0 }
    else s
  if s.currentRps < cfg.maxRps then
    { s with currentRps := min cfg.maxRps (s.currentRps * (11 / 10)) }
  else s

/-- `AdaptiveRateLimiter.on_rate_limit` at time `now`. -/
def onRateLimit (cfg : LimiterConfig) (now : ℚ) (s : LimiterState) :
    LimiterState :=
  let s := { s with
    stats := { s.stats with rateLimitHits := s.stats.rateLimitHits + 1 },
    consecutiveErrors := s.consecutiveErrors + 1 }
  let s := { s with currentRps := max cfg.minRps (s.currentRps * (1 / 2)) }
  checkCircuit cfg now s

/-- `AdaptiveRateLimiter.on_error` at time `now`. -/
def onError (cfg : LimiterConfig) (now : ℚ) (s : LimiterState) :
    LimiterState :=
  let s := { s with
    stats := { s.stats with errorsTotal := s.stats.errorsTotal + 1 },
    consecutiveErrors := s.consecutiveErrors + 1,
    consecutiveSuccesses := 0 }
  let s := { s with currentRps := max cfg.minRps (s.currentRps * (4 / 5)) }
  checkCircuit cfg now s

/-! ### Upstream fetcher (`make_serp_request`)

The two-phase submit/poll protocol with retries is embedded as a pure
function over a script describing what the network returns on each attempt.
The rate-limiter hook calls do not influence the control flow modelled here
(the default `NullRateLimiter` never raises), so they are not threaded
through. -/

/-- What one HTTP interaction yields: a transport timeout
(`asyncio.TimeoutError`), a transport client error (`aiohttp.ClientError`),
or an HTTP response with a status and a parsed body. -/
inductive NetResp (α : Type)
  | transportTimeout
  | clientError (msg : String)
  | http (status : Nat) (body : α)
deriving DecidableEq

/-- The network's behaviour during one attempt: the submit response (body =
the `response_id` field of the parsed JSON, `none` if absent) and the poll
responses by poll index. -/
structure AttemptScript (α : Type) where
  submit : NetResp (Option String)
  poll : Nat → NetResp α

/-- The error taxonomy of `exceptions.py` relevant to the fetcher. -/
inductive SerpErr
  | apiError (msg : String)
  | timeoutError (msg : String)
  | rateLimitError (msg : String)
deriving DecidableEq

instance {ε α : Type} [DecidableEq ε] [DecidableEq α] :
    DecidableEq (Except ε α) := fun x y => by
  cases x <;> cases y
  case error.error a b => exact decidable_of_iff (a = b) (by simp)
  case ok.ok a b => exact decidable_of_iff (a = b) (by simp)
  all_goals exact .isFalse (by simp)

/-- Outcome of one attempt body: a transport error (caught and possibly
retried) or a final result (returned or re-raised without retry). -/
inductive AttemptOutcome (α : Type)
  | transportTimeout
  | transportClient (msg : String)
  | final (r : Except SerpErr α)
deriving DecidableEq

/-- The polling loop (`for poll_num in range(settings.max_polls)`): `fuel`
is the number of polls left, `idx` the current poll index. -/
def runPoll {α : Type} (script : Nat → NetResp α) :
    Nat → Nat → AttemptOutcome α
  | 0, _ =>
    .final (.error (.timeoutError "Polling timeout"))
  | fuel + 1, idx =>
    match script idx with
    | .transportTimeout => .transportTimeout
    | .clientError msg => .transportClient msg
    | .http status body =>
      if status = 200 then .final (.ok body)
      else if status = 429 then
        .final (.error (.rateLimitError "Rate limit exceeded during polling"))
      else if status = 102 ∨ status = 202 then
        runPoll script fuel (idx + 1)
      else
        .final (.error (.apiError
          ("Unexpected status during polling: " ++ toString status)))

/-- One attempt of `make_serp_request`: submit, then poll.  A submit status
of 429 raises `SerpRateLimitError`; a missing or falsy `response_id` raises
`SerpAPIError`; otherwise the poll loop runs with `max_polls` budget. -/
def runAttempt {α : Type} (maxPolls : Nat) (a : AttemptScript α) :
    AttemptOutcome α :=
  match a.submit with
  | .transportTimeout => .transportTimeout
  | .clientError msg => .transportClient msg
  | .http status rid =>
    if status = 429 then
      .final (.error (.rateLimitError "Rate limit exceeded on submit"))
    else if rid.getD "" = "" then
      .final (.error (.apiError "No response_id returned from API"))
    else runPoll a.poll maxPolls 0

/-- The retry loop of `make_serp_request` (`for attempt in
range(max_retries + 1)`): `fuel` counts the attempts left, `k` is the
current attempt index, `delays` accumulates the backoff sleeps
(`retry_backoff ** attempt`) performed before retries. -/
def runRetries {α : Type} (maxRetries : Nat) (backoff : ℚ) (maxPolls : Nat)
    (scripts : Nat → AttemptScript α) :
    Nat → Nat → List ℚ → Except SerpErr α × List ℚ
  | 0, _, delays => (.error (.apiError "All retries exhausted"), delays)
  | fuel + 1, k, delays =>
    match runAttempt maxPolls (scripts k) with
    | .final r => (r, delays)
    | .transportTimeout =>
      if k < maxRetries then
        runRetries maxRetries backoff maxPolls scripts fuel (k + 1)
          (delays ++ [backoff ^ k])
      else (.error (.timeoutError "Request timeout after all retries"),
            delays)
    | .transportClient msg =>
      if k < maxRetries then
        runRetries maxRetries backoff maxPolls scripts fuel (k + 1)
          (delays ++ [backoff ^ k])
      else (.error (.apiError ("Client error: " ++ msg.take 100)), delays)

/-- Embedding of `make_serp_request`: run up to `max_retries + 1` attempts,
returning the result together with the backoff delays slept. -/
def makeSerpRequestModel {α : Type} (maxRetries : Nat) (backoff : ℚ)
    (maxPolls : Nat) (scripts : Nat → AttemptScript α) :
    Except SerpErr α × List ℚ :=
  runRetries maxRetries backoff maxPolls scripts (maxRetries + 1) 0 []

/-- A poll status the loop treats as pending (continue polling). -/
def isPending {α : Type} : NetResp α → Prop
  | .http status _ => status = 102 ∨ status = 202
  | _ => False

instance {α : Type} : DecidablePred (isPending (α := α)) := fun r => by
  cases r with
  | http status body =>
    exact inferInstanceAs (Decidable (status = 102 ∨ status = 202))
  | transportTimeout => exact inferInstanceAs (Decidable False)
  | clientError m => exact inferInstanceAs (Decidable False)

/-- An attempt outcome the retry loop treats as a retryable transport
error. -/
def isTransportOutcome {α : Type} (o : AttemptOutcome α) : Prop :=
  o = .transportTimeout ∨ ∃ msg, o = .transportClient msg

/-- A submit response that passes the submit-phase checks: an HTTP response
that is not a 429 and carries a non-falsy `response_id`. -/
def submitOk {α : Type} (a : AttemptScript α) : Prop :=
  ∃ st rid, a.submit = .http st (some rid) ∧ st ≠ 429 ∧ rid ≠ ""

/-! ### In-memory result cache (`cache.py`) and the aggregator's search
path (`client.py`)

`InMemoryCache` is embedded with `time.time()` as an explicit `now : ℚ`
argument.  The cache dict becomes an insertion-ordered association list;
`_access_order` is a key list with `list.remove` modelled by `List.erase`
(first occurrence, exactly Python's semantics). -/

/-- A cache entry (`CacheEntry`): value, creation time, TTL (`None` or an
integer number of seconds; `0` disables expiry). -/
structure CacheEntryM where
  value : SearchResultM
  createdAt : ℚ
  ttl : Option Int
deriving DecidableEq

/-- `CacheEntry.is_expired` at time `now`. -/
def CacheEntryM.isExpired (now : ℚ) (e : CacheEntryM) : Bool :=
  match e.ttl with
  | none => false
  | some t => if t = 0 then false else decide (now - e.createdAt > (t : ℚ))

/-- Cache statistics (`CacheStats`). -/
structure CacheStatsM where
  hits : Nat := 0
  misses : Nat := 0
  sets : Nat := 0
  evictions : Nat := 0
  size : Nat := 0
deriving DecidableEq

/-- State of `InMemoryCache`. -/
structure InMemoryCacheM where
  defaultTtl : Int := 3600
  maxSize : Nat := 1000
  cache : List (String × CacheEntryM) := []
  accessOrder : List String := []
  stats : CacheStatsM := {}
deriving DecidableEq

/-- Dict lookup `self._cache.get(key)`. -/
def cacheFind (key : String) (l : List (String × CacheEntryM)) :
    Option CacheEntryM :=
  (l.find? (fun p => p.1 = key)).map (fun p => p.2)

/-- Dict deletion `del self._cache[key]`. -/
def cacheErase (key : String) (l : List (String × CacheEntryM)) :
    List (String × CacheEntryM) :=
  l.filter (fun p => p.1 ≠ key)

/-- Dict assignment `self._cache[key] = entry`: update in place when
present, append otherwise. -/
def cacheUpsert (key : String) (e : CacheEntryM)
    (l : List (String × CacheEntryM)) : List (String × CacheEntryM) :=
  if (l.find? (fun p => p.1 = key)).isSome then
    l.map (fun p => if p.1 = key then (key, e) else p)
  else l ++ [(key, e)]

/-- `InMemoryCache.get` at time `now`: miss on absence, expiry deletes and
counts an eviction, a hit promotes the key to most recently used. -/
def cacheGet (now : ℚ) (key : String) (c : InMemoryCacheM) :
    Option SearchResultM × InMemoryCacheM :=
  match cacheFind key c.cache with
  | none =>
    (none, { c with stats := { c.stats with misses := c.stats.misses + 1 } })
  | some e =>
    if e.isExpired now then
      let stats1 := { c.stats with misses := c.stats.misses + 1 }
      let stats2 := { stats1 with evictions := stats1.evictions + 1 }
      (none, { c with cache := cacheErase key c.cache,
                      accessOrder := c.accessOrder.erase key,
                      stats := stats2 })
    else
      (some e.value, { c with accessOrder := c.accessOrder.erase key ++ [key],
                              stats := { c.stats with
                                           hits := c.stats.hits + 1 } })

/-- The LRU eviction loop at the top of `InMemoryCache.set` (`while
len(self._cache) >= self.max_size:`), popping the least recently used
key. -/
def evictLoop (c : InMemoryCacheM) : InMemoryCacheM :=
  if c.maxSize ≤ c.cache.length then
    match _h : c.accessOrder with
    | [] => c
    | oldest :: rest =>
      let present := (cacheFind oldest c.cache).isSome
      let c1 : InMemoryCacheM :=
        { c with accessOrder := rest,
                 cache := if present then cacheErase oldest c.cache
                          else c.cache,
                 stats := if present then
                            { c.stats with
                                evictions := c.stats.evictions + 1 }
                          else c.stats }
      evictLoop c1
  else c
termination_by c.accessOrder.length
decreasing_by
  simp [_h]

/-- `InMemoryCache.set` at time `now`, with the optional per-call TTL
(`None` means use `default_ttl`). -/
def cacheSet (now : ℚ) (key : String) (value : SearchResultM)
    (ttl : Option Int) (c : InMemoryCacheM) : InMemoryCacheM :=
  let entry : CacheEntryM :=
    { value := value, createdAt := now,
      ttl := some (ttl.getD c.defaultTtl) }
  let c := evictLoop c
  let c := { c with cache := cacheUpsert key entry c.cache }
  let c := { c with accessOrder := c.accessOrder.erase key ++ [key] }
  let stats1 := { c.stats with sets := c.stats.sets + 1 }
  { c with stats := { stats1 with size := c.cache.length } }

/-- Outcome of one `SerpAggregator.search` call: the returned result, the
cache state afterwards, whether `on_cache_hit` was emitted, and whether the
upstream fetch (`fetch_all_pages`) ran. -/
structure SearchOutcome where
  result : SearchResultM
  cache : InMemoryCacheM
  cacheHitEmitted : Bool
  upstreamCalled : Bool
deriving DecidableEq

/-- Embedding of the cache-relevant control flow of
`SerpAggregator.search`: the cache is consulted only when `use_cache`; a hit
emits `on_cache_hit` and returns without fetching; otherwise the fetch
result `fetched` (what `fetch_all_pages` returns for these parameters) is
returned and stored only when `use_cache` holds and it has no errors. -/
def searchModel (c : InMemoryCacheM) (now : ℚ)
    (query country language : String) (maxPages : Int) (useCache : Bool)
    (fetched : SearchResultM) : SearchOutcome :=
  if useCache then
    let key := generate_cache_key query country language maxPages
    match cacheGet now key c with
    | (some r, c1) => ⟨r, c1, true, false⟩
    | (none, c1) =>
      if !fetched.hasErrors then
        ⟨fetched, cacheSet now key fetched none c1, false, true⟩
      else ⟨fetched, c1, false, true⟩
  else ⟨fetched, c, false, true⟩

/-! ### Parameter resolution and validation on the search path
(`client.py` `search` + `settings.py` `SerpSettings`)

`search` applies `value or default` resolution (so falsy values — `None`,
`0`, `""` — silently fall back to the configured defaults), then constructs
a `SerpSettings` object whose pydantic field constraints validate country,
language, `default_max_pages` (1–100) and `default_concurrency` (1–200).
The query string itself is never validated on this path
(`models.SearchParams` is not used by `SerpAggregator.search`).  Pydantic
reports all field violations at once; the embedding reports the first, which
is equivalent for the raised-or-not questions the claims ask. -/

/-- Lowercase ASCII letter test. -/
def isLowerAlpha (c : Char) : Bool := 'a' ≤ c && c ≤ 'z'

/-- The pydantic pattern `^[a-z]{2}$` for country codes. -/
def matchesCountry (s : String) : Bool :=
  match s.data with
  | [a, b] => isLowerAlpha a && isLowerAlpha b
  | _ => false

/-- The pydantic pattern `^[a-z]{2}(-[a-z]{2})?$` for language codes. -/
def matchesLanguage (s : String) : Bool :=
  match s.data with
  | [a, b] => isLowerAlpha a && isLowerAlpha b
  | [a, b, h, d, e] =>
    isLowerAlpha a && isLowerAlpha b && (h = '-') &&
      isLowerAlpha d && isLowerAlpha e
  | _ => false

/-- Python `x or default` for an optional int argument (`None` and `0` are
falsy). -/
def resolveInt (v : Option Int) (dflt : Int) : Int :=
  match v with
  | none => dflt
  | some x => if x = 0 then dflt else x

/-- Python `x or default` for an optional string argument (`None` and `""`
are falsy). -/
def resolveStr (v : Option String) (dflt : String) : String :=
  match v with
  | none => dflt
  | some x => if x = "" then dflt else x

/-- The settings defaults relevant to parameter resolution. -/
structure SearchDefaults where
  country : String := "us"
  language : String := "en"
  maxPages : Int := 25
  concurrency : Int := 50
deriving DecidableEq

/-- The resolved per-request parameters. -/
structure ResolvedParams where
  query : String
  country : String
  language : String
  maxPages : Int
  concurrency : Int
deriving DecidableEq

/-- Parameter resolution and `SerpSettings` construction on the
`SerpAggregator.search` path: falsy arguments fall back to defaults, then
the pydantic field constraints of the per-request `SerpSettings` run.  An
`Except.error` is a pydantic `ValidationError` raised before
`fetch_all_pages` is called; the query is passed through unvalidated. -/
def searchPrepare (d : SearchDefaults) (query : String)
    (maxPages concurrency : Option Int)
    (country language : Option String) :
    Except String ResolvedParams :=
  let mp := resolveInt maxPages d.maxPages
  let conc := resolveInt concurrency d.concurrency
  let co := resolveStr country d.country
  let la := resolveStr language d.language
  if !matchesCountry co then .error "default_country"
  else if !matchesLanguage la then .error "default_language"
  else if !(1 ≤ mp ∧ mp ≤ 100) then .error "default_max_pages"
  else if !(1 ≤ conc ∧ conc ≤ 200) then .error "default_concurrency"
  else .ok ⟨query, co, la, mp, conc⟩

/-- A fresh default-configured limiter after `n` consecutive `on_error`
calls at time 0. -/
def limiterAfterErrors (n : Nat) : LimiterState :=
  (onError {} 0)^[n] (LimiterState.init {} 0)

/-- The limiter after the circuit opened (5 errors) and a successful
half-open probe acquire at time 31 (past the 30s recovery timeout). -/
def halfOpenProbeState : LimiterState :=
  (acquire {} 31 (limiterAfterErrors 5)).2

/-- The half-open limiter after one `on_success` and then one `on_error`
at time 32. -/
def halfOpenAfterErrorState : LimiterState :=
  onError {} 32 (onSuccess {} halfOpenProbeState)

/-- The links of the dedup map. -/
def mapLinks (m : List MergeEntry) : List String :=
  m.map (fun e => e.link)

/-- Well-formedness of the dedup map: no empty links, unique links. -/
def WFmap (m : List MergeEntry) : Prop :=
  (∀ e ∈ m, e.link ≠ "") ∧ (mapLinks m).Nodup

/-- The occurrence one organic item contributes for a URL. -/
def itemOcc (url : String) (page : Nat) (it : OrganicItem) :
    List (Nat × OrganicItem) :=
  if it.link = url then [(page, it)] else []

/-- The aggregate fields (`best_position`, `avg_position`, `frequency`,
`pages_seen`) that a nonempty occurrence list determines. -/
def aggOfOccs (os : List (Nat × OrganicItem)) : Int × ℚ × Nat × List Nat :=
  let ranks := os.map (fun o => o.2.rank)
  let pages := os.map (fun o => o.1)
  (listMinInt ranks,
   pyRound2 ((ranks.sum : ℚ) / (ranks.length : ℚ)),
   ranks.length,
   pages.dedup.insertionSort (· ≤ ·))

/-! ## Theorems -/

set_option maxRecDepth 100000 in
/-- C3, counterexample: `generate_cache_key` does not normalize case or
whitespace of the query.  The claim asserts that two parameter sets
differing only in the query's case (or whitespace) yield the same key; at
query `"A"` versus `"a"` (and `" a "` versus `"a"`), same country `"us"`,
language `"en"`, `max_pages = 25`, the keys differ. -/
theorem C3_cache_key_not_normalized_cex :
    generate_cache_key "A" "us" "en" 25 ≠ generate_cache_key "a" "us" "en" 25
      ∧ generate_cache_key " a " "us" "en" 25 ≠
        generate_cache_key "a" "us" "en" 25 := by
  constructor <;> decide

set_option maxRecDepth 100000 in
/-- C3, amended: `generate_cache_key` hashes the raw, un-normalized
`"{query}|{country}|{language}|{max_pages}"` string, so the key depends
only on that raw string (equal raw key data gives equal keys), and queries
that differ in case or in whitespace in general produce different keys. -/
theorem C3_cache_key_raw_determinism :
    (∀ q c l m q2 c2 l2 m2, keyData q c l m = keyData q2 c2 l2 m2 →
      generate_cache_key q c l m = generate_cache_key q2 c2 l2 m2)
    ∧ generate_cache_key "Rust tutorial" "us" "en" 25 ≠
        generate_cache_key "rust tutorial" "us" "en" 25 := by
  constructor
  · intro q c l m q2 c2 l2 m2 h
    unfold generate_cache_key
    rw [h]
  · decide

/-- C3, witness: the determinism component applied at a concrete input. -/
theorem C3_cache_key_raw_determinism_witness :
    generate_cache_key "python" "us" "en" 25 =
      generate_cache_key "python" "us" "en" 25 :=
  C3_cache_key_raw_determinism.1 "python" "us" "en" 25 "python" "us" "en" 25
    rfl

/-- C8, counterexample: the claim says every out-of-range parameter set
(including an empty query, or `max_pages` outside 1–100) makes `search`
raise a validation failure before any upstream request.  On the code path,
the query is never validated (an empty query sails through), and the falsy
value `max_pages = 0` is silently replaced by the default 25 by
`max_pages or self._settings.default_max_pages` instead of failing. -/
theorem C8_validation_cex :
    searchPrepare {} "" none none none none =
        .ok ⟨"", "us", "en", 25, 50⟩
      ∧ searchPrepare {} "q" (some 0) none none none =
        .ok ⟨"q", "us", "en", 25, 50⟩ := by
  constructor <;> rfl

/-- C8, amended: on the `SerpAggregator.search` path a pydantic
`ValidationError` is raised before `fetch_all_pages` runs exactly when,
after Python's falsy-or-default resolution, the country fails `^[a-z]{2}$`,
the language fails `^[a-z]{2}(-[a-z]{2})?$`, the resolved `max_pages` lies
outside 1–100, or the resolved `concurrency` lies outside 1–200; the query
string is passed through entirely unvalidated (it never influences whether
validation fails). -/
theorem C8_validation_characterization :
    ∀ (d : SearchDefaults) (q : String) (mp conc : Option Int)
      (co la : Option String),
      ((∃ e, searchPrepare d q mp conc co la = .error e) ↔
        ¬(matchesCountry (resolveStr co d.country) = true ∧
          matchesLanguage (resolveStr la d.language) = true ∧
          1 ≤ resolveInt mp d.maxPages ∧ resolveInt mp d.maxPages ≤ 100 ∧
          1 ≤ resolveInt conc d.concurrency ∧
          resolveInt conc d.concurrency ≤ 200))
      ∧ (∀ q2, (∃ e, searchPrepare d q mp conc co la = .error e) ↔
          (∃ e, searchPrepare d q2 mp conc co la = .error e)) := by
  have hchar : ∀ (d : SearchDefaults) (q : String) (mp conc : Option Int)
      (co la : Option String),
      (∃ e, searchPrepare d q mp conc co la = .error e) ↔
        ¬(matchesCountry (resolveStr co d.country) = true ∧
          matchesLanguage (resolveStr la d.language) = true ∧
          1 ≤ resolveInt mp d.maxPages ∧ resolveInt mp d.maxPages ≤ 100 ∧
          1 ≤ resolveInt conc d.concurrency ∧
          resolveInt conc d.concurrency ≤ 200) := by
    intro d q mp conc co la
    unfold searchPrepare
    dsimp only
    split
    · simp_all
    · split
      · simp_all
      · split
        · simp_all
          omega
        · split
          · simp_all
            omega
          · simp_all
  intro d q mp conc co la
  exact ⟨hchar d q mp conc co la,
    fun q2 => (hchar d q mp conc co la).trans
      (hchar d q2 mp conc co la).symm⟩

/-- C8, witness: the characterization applied at the concrete out-of-range
input `max_pages = 101`, showing a validation failure is raised there. -/
theorem C8_validation_characterization_witness :
    ∃ e, searchPrepare {} "q" (some 101) none none none = .error e :=
  ((C8_validation_characterization {} "q" (some 101) none none none).1).mpr
    (by decide)

/-! ### Circuit-breaker lemmas -/

/-- The circuit state after `on_success`: half-open closes when the
incremented success count reaches the threshold; nothing else changes it. -/
theorem onSuccess_circuitState (cfg : LimiterConfig) (s : LimiterState) :
    (onSuccess cfg s).circuitState =
      if s.circuitState = .halfOpen ∧
          cfg.successThreshold ≤ s.consecutiveSuccesses + 1 then
        .closed
      else s.circuitState := by
  unfold onSuccess
  dsimp only
  split <;> split <;> simp_all

/-- The success counter after `on_success`. -/
theorem onSuccess_consecutiveSuccesses (cfg : LimiterConfig)
    (s : LimiterState) :
    (onSuccess cfg s).consecutiveSuccesses =
      if s.circuitState = .halfOpen ∧
          cfg.successThreshold ≤ s.consecutiveSuccesses + 1 then 0
      else s.consecutiveSuccesses + 1 := by
  unfold onSuccess
  dsimp only
  split <;> split <;> simp_all

/-- `on_success` resets the error counter. -/
theorem onSuccess_consecutiveErrors (cfg : LimiterConfig)
    (s : LimiterState) : (onSuccess cfg s).consecutiveErrors = 0 := by
  unfold onSuccess
  dsimp only
  split <;> split <;> simp_all

/-- A closed circuit stays closed under any number of `on_success` calls. -/
theorem iterate_onSuccess_closed (cfg : LimiterConfig) :
    ∀ (k : Nat) (s : LimiterState), s.circuitState = .closed →
      ((onSuccess cfg)^[k] s).circuitState = .closed := by
  intro k
  induction k with
  | zero => intro s h; simpa using h
  | succ k ih =>
    intro s h
    rw [Function.iterate_succ_apply]
    apply ih
    rw [onSuccess_circuitState, h]
    simp

/-- The circuit state after `on_error`: the circuit (re)opens exactly when
the incremented error counter reaches the threshold (and it was not already
open, in which case it stays open). -/
theorem onError_circuitState (cfg : LimiterConfig) (now : ℚ)
    (s : LimiterState) :
    (onError cfg now s).circuitState =
      if cfg.errorThreshold ≤ s.consecutiveErrors + 1 then .opened
      else s.circuitState := by
  unfold onError checkCircuit
  dsimp only
  by_cases hth : cfg.errorThreshold ≤ s.consecutiveErrors + 1
  · by_cases hst : s.circuitState = CircuitStateM.opened <;> simp_all
  · simp [hth]

/-- The recorded opening time after `on_error`, when it opens a previously
non-open circuit. -/
theorem onError_openedAt (cfg : LimiterConfig) (now : ℚ)
    (s : LimiterState) (hst : s.circuitState ≠ .opened)
    (hth : cfg.errorThreshold ≤ s.consecutiveErrors + 1) :
    (onError cfg now s).circuitOpenedAt = now := by
  unfold onError checkCircuit
  dsimp only
  simp_all

/-- `acquireTokens` always grants and never touches the circuit fields. -/
theorem acquireTokens_spec (cfg : LimiterConfig) (now : ℚ)
    (s : LimiterState) :
    (∃ w, (acquireTokens cfg now s).1 = .granted w) ∧
      (acquireTokens cfg now s).2.circuitState = s.circuitState ∧
      (acquireTokens cfg now s).2.consecutiveSuccesses =
        s.consecutiveSuccesses := by
  unfold acquireTokens
  dsimp only
  split <;> simp

/-- C4, counterexample: the claim says any single `on_error` in half-open
reopens the circuit.  Reachable trace with default settings: five
`on_error` calls at time 0 open the circuit; `acquire` at time 31 (past the
30s recovery timeout) moves it to half-open; one `on_success` (which resets
`consecutive_errors` to 0) followed by one `on_error` at time 32 leaves the
circuit half-open, not open, because `_check_circuit` only opens at
`consecutive_errors >= error_threshold`. -/
theorem C4_half_open_onError_cex :
    halfOpenProbeState.circuitState = .halfOpen
      ∧ halfOpenAfterErrorState.circuitState = .halfOpen
      ∧ halfOpenAfterErrorState.circuitState ≠ .opened :=
  of_decide_eq_true (by with_unfolding_all rfl)

/-- C4, amended: the circuit-breaker state machine of
`AdaptiveRateLimiter`, as implemented: (a) from closed, `on_error` opens
the circuit exactly when the updated `consecutive_errors` reaches
`error_threshold` (default 5), recording `opened_at`; (b) while open,
`acquire` raises a circuit-open error until `now - opened_at` exceeds
`recovery_timeout` (default 30s), after which the next `acquire` moves to
half-open (resetting `consecutive_successes`) and is allowed; (c) in
half-open, `success_threshold` (default 3) consecutive `on_success` calls
close the circuit; (d) in half-open, an `on_error` reopens the circuit
exactly when the updated `consecutive_errors` reaches `error_threshold` —
not unconditionally (the open→half-open transition does not reset
`consecutive_errors`, so the first failed probe does reopen it, but after
an intervening `on_success` a single `on_error` leaves it half-open). -/
theorem C4_circuit_breaker_machine :
    ∀ (cfg : LimiterConfig) (s : LimiterState) (now : ℚ),
      (s.circuitState = .closed →
        ((onError cfg now s).circuitState = .opened ↔
          cfg.errorThreshold ≤ s.consecutiveErrors + 1) ∧
        (cfg.errorThreshold ≤ s.consecutiveErrors + 1 →
          (onError cfg now s).circuitOpenedAt = now))
      ∧ (s.circuitState = .opened →
          (¬(now - s.circuitOpenedAt > cfg.recoveryTimeout) →
            (acquire cfg now s).1 = .rejected ∧
            (acquire cfg now s).2.circuitState = .opened)
          ∧ (now - s.circuitOpenedAt > cfg.recoveryTimeout →
              (∃ w, (acquire cfg now s).1 = .granted w) ∧
              (acquire cfg now s).2.circuitState = .halfOpen ∧
              (acquire cfg now s).2.consecutiveSuccesses = 0))
      ∧ (∀ k, s.circuitState = .halfOpen → 1 ≤ k →
          cfg.successThreshold ≤ s.consecutiveSuccesses + k →
          ((onSuccess cfg)^[k] s).circuitState = .closed)
      ∧ (s.circuitState = .halfOpen →
          ((onError cfg now s).circuitState = .opened ↔
            cfg.errorThreshold ≤ s.consecutiveErrors + 1)) := by
  intro cfg s now
  refine ⟨?_, ?_, ?_, ?_⟩
  · intro hcl
    constructor
    · rw [onError_circuitState]
      constructor
      · intro h
        by_contra hth
        simp [hth, hcl] at h
      · intro hth
        simp [hth]
    · intro hth
      exact onError_openedAt cfg now s (by rw [hcl]; simp) hth
  · intro hop
    constructor
    · intro hlt
      unfold acquire
      dsimp only
      rw [hop]
      simp only [hlt, if_false]
      simp
    · intro hgt
      unfold acquire
      dsimp only
      rw [hop]
      simp only [hgt, if_true]
      refine ⟨(acquireTokens_spec cfg now _).1, ?_, ?_⟩
      · rw [(acquireTokens_spec cfg now _).2.1]
      · rw [(acquireTokens_spec cfg now _).2.2]
  · intro k
    induction k generalizing s with
    | zero => intro _ h1; omega
    | succ k ih =>
      intro hho _ hth
      rw [Function.iterate_succ_apply]
      by_cases hc : cfg.successThreshold ≤ s.consecutiveSuccesses + 1
      · have hclosed : (onSuccess cfg s).circuitState = .closed := by
          rw [onSuccess_circuitState]
          simp [hho, hc]
        exact iterate_onSuccess_closed cfg k _ hclosed
      · have hho1 : (onSuccess cfg s).circuitState = .halfOpen := by
          rw [onSuccess_circuitState]
          simp [hc, hho]
        have hsucc : (onSuccess cfg s).consecutiveSuccesses =
            s.consecutiveSuccesses + 1 := by
          rw [onSuccess_consecutiveSuccesses]
          simp [hc]
        exact ih _ hho1 (by omega) (by omega)
  · intro hho
    rw [onError_circuitState]
    constructor
    · intro h
      by_contra hth
      simp [hth, hho] at h
    · intro hth
      simp [hth]

/-- C4, witness: the amended machine applied on a concrete trace with
default settings: five `on_error` calls from a fresh limiter open the
circuit; `acquire` at time 5 (inside the recovery window) is rejected; and
from the half-open probe state, three `on_success` calls close the
circuit. -/
theorem C4_circuit_breaker_machine_witness :
    (onError {} 0 (limiterAfterErrors 4)).circuitState = .opened
    ∧ (acquire {} 5 (limiterAfterErrors 5)).1 = .rejected
    ∧ ((onSuccess {})^[3] halfOpenProbeState).circuitState = .closed := by
  refine ⟨?_, ?_, ?_⟩
  · exact (((C4_circuit_breaker_machine {} (limiterAfterErrors 4) 0).1
      (of_decide_eq_true (by with_unfolding_all rfl))).1).mpr
      (of_decide_eq_true (by with_unfolding_all rfl))
  · exact (((C4_circuit_breaker_machine {} (limiterAfterErrors 5) 5).2.1
      (of_decide_eq_true (by with_unfolding_all rfl))).1
      (of_decide_eq_true (by with_unfolding_all rfl))).1
  · exact (C4_circuit_breaker_machine {} halfOpenProbeState 0).2.2.1 3
      (of_decide_eq_true (by with_unfolding_all rfl))
      (of_decide_eq_true (by with_unfolding_all rfl))
      (of_decide_eq_true (by with_unfolding_all rfl))

/-! ### Fetcher lemmas (`make_serp_request`) -/

/-- A pending poll status (102/202) consumes one unit of the polling budget
and moves to the next poll index. -/
theorem runPoll_pending {α : Type} (script : Nat → NetResp α) (f idx : Nat)
    (h : isPending (script idx)) :
    runPoll script (f + 1) idx = runPoll script f (idx + 1) := by
  cases hs : script idx with
  | transportTimeout => rw [hs] at h; exact absurd h (by simp [isPending])
  | clientError m => rw [hs] at h; exact absurd h (by simp [isPending])
  | http status body =>
    rw [hs] at h
    have h2 : status = 102 ∨ status = 202 := h
    rcases h2 with h2 | h2 <;> subst h2 <;> simp [runPoll, hs]

/-- Skipping a pending prefix of length `j`. -/
theorem runPoll_skip {α : Type} (script : Nat → NetResp α) :
    ∀ (j f idx : Nat), (∀ t, t < j → isPending (script (idx + t))) →
      runPoll script (j + f) idx = runPoll script f (idx + j) := by
  intro j
  induction j with
  | zero => intro f idx _; simp
  | succ j ih =>
    intro f idx hpend
    have h0 : isPending (script idx) := by
      have := hpend 0 (by omega)
      simpa using this
    have hstep : runPoll script (j + f + 1) idx =
        runPoll script (j + f) (idx + 1) := runPoll_pending script _ idx h0
    have harith : j + 1 + f = j + f + 1 := by omega
    rw [harith, hstep, ih f (idx + 1) (fun t ht => by
      have := hpend (t + 1) (by omega)
      simpa [Nat.add_assoc, Nat.add_comm 1 t] using this)]
    congr 1
    omega

/-- With a pending prefix of length `j < maxPolls` and then a definite poll
status at index `j`, the poll loop resolves according to that status. -/
theorem runPoll_resolves {α : Type} (script : Nat → NetResp α)
    (maxPolls j : Nat) (hj : j < maxPolls)
    (hpend : ∀ t, t < j → isPending (script t)) (status : Nat) (body : α)
    (hs : script j = .http status body) :
    runPoll script maxPolls 0 =
      (if status = 200 then .final (.ok body)
       else if status = 429 then
         .final (.error (.rateLimitError
           "Rate limit exceeded during polling"))
       else if status = 102 ∨ status = 202 then
         runPoll script (maxPolls - j - 1) (j + 1)
       else
         .final (.error (.apiError
           ("Unexpected status during polling: " ++ toString status)))) := by
  obtain ⟨f, hf⟩ : ∃ f, maxPolls = j + (f + 1) := ⟨maxPolls - j - 1, by omega⟩
  have hskip : runPoll script maxPolls 0 = runPoll script (f + 1) j := by
    have h := runPoll_skip script j (f + 1) 0 (by simpa using hpend)
    rw [← hf] at h
    simpa using h
  have hfsub : maxPolls - j - 1 = f := by omega
  rw [hskip, hfsub]
  simp only [runPoll, hs]

/-- Exhausting the polling budget on pending statuses yields the polling
timeout error. -/
theorem runPoll_timeout {α : Type} (script : Nat → NetResp α)
    (maxPolls : Nat) (hpend : ∀ t, t < maxPolls → isPending (script t)) :
    runPoll script maxPolls 0 =
      .final (.error (.timeoutError "Polling timeout")) := by
  have hskip := runPoll_skip script maxPolls 0 0 (by simpa using hpend)
  have harith : maxPolls + 0 = maxPolls := by omega
  rw [harith] at hskip
  rw [hskip]
  rfl

/-- A final attempt outcome ends the retry loop immediately with the
accumulated delays. -/
theorem runRetries_final {α : Type} (maxRetries : Nat) (backoff : ℚ)
    (maxPolls : Nat) (scripts : Nat → AttemptScript α) (fuel k : Nat)
    (delays : List ℚ) (r : Except SerpErr α)
    (h : runAttempt maxPolls (scripts k) = .final r) :
    runRetries maxRetries backoff maxPolls scripts (fuel + 1) k delays =
      (r, delays) := by
  simp [runRetries, h]

/-- Transport failures on attempts `k..k+m-1` followed by a final outcome
on attempt `k+m` resolve to that outcome, with one backoff delay per failed
attempt. -/
theorem runRetries_reaches {α : Type} (maxRetries : Nat) (backoff : ℚ)
    (maxPolls : Nat) (scripts : Nat → AttemptScript α)
    (r : Except SerpErr α) :
    ∀ (m k : Nat) (delays : List ℚ), k + m ≤ maxRetries →
      (∀ t, t < m → isTransportOutcome (runAttempt maxPolls
        (scripts (k + t)))) →
      runAttempt maxPolls (scripts (k + m)) = .final r →
      runRetries maxRetries backoff maxPolls scripts
          (maxRetries + 1 - k) k delays =
        (r, delays ++ (List.range m).map (fun t => backoff ^ (k + t))) := by
  intro m
  induction m with
  | zero =>
    intro k delays hk _ hfin
    obtain ⟨f, hf⟩ : ∃ f, maxRetries + 1 - k = f + 1 := ⟨maxRetries - k, by omega⟩
    rw [hf]
    simp only [Nat.add_zero] at hfin
    rw [runRetries_final maxRetries backoff maxPolls scripts f k delays r hfin]
    simp
  | succ m ih =>
    intro k delays hk htrans hfin
    obtain ⟨f, hf⟩ : ∃ f, maxRetries + 1 - k = f + 1 := ⟨maxRetries - k, by omega⟩
    have hklt : k < maxRetries := by omega
    have h0 : isTransportOutcome (runAttempt maxPolls (scripts k)) := by
      have := htrans 0 (by omega)
      simpa using this
    have hstep : runRetries maxRetries backoff maxPolls scripts (f + 1) k
        delays = runRetries maxRetries backoff maxPolls scripts f (k + 1)
          (delays ++ [backoff ^ k]) := by
      rcases h0 with h0 | ⟨msg, h0⟩ <;> simp [runRetries, h0, hklt]
    have hfeq : f = maxRetries + 1 - (k + 1) := by omega
    have hnext := ih (k + 1) (delays ++ [backoff ^ k]) (by omega)
      (fun t ht => by
        have := htrans (t + 1) (by omega)
        simpa [Nat.add_assoc, Nat.add_comm 1 t] using this)
      (by
        have harith : k + 1 + m = k + (m + 1) := by omega
        rw [harith]; exact hfin)
    have hlist : [backoff ^ k] ++ (List.range m).map
        (fun t => backoff ^ (k + 1 + t)) =
          (List.range (m + 1)).map (fun t => backoff ^ (k + t)) := by
      rw [List.range_succ_eq_map]
      simp only [List.map_cons, List.map_map, List.singleton_append,
        List.cons.injEq]
      refine ⟨by rw [Nat.add_zero], ?_⟩
      apply List.map_congr_left
      intro t _
      simp only [Function.comp_apply]
      congr 1
      omega
    rw [hf, hstep, hfeq, hnext, List.append_assoc, hlist]

/-- Transport timeouts on every attempt surface the final timeout error
after `maxRetries` backoff delays. -/
theorem runRetries_all_timeout {α : Type} (maxRetries : Nat) (backoff : ℚ)
    (maxPolls : Nat) (scripts : Nat → AttemptScript α) :
    ∀ (d k : Nat) (delays : List ℚ), maxRetries - k = d → k ≤ maxRetries →
      (∀ t, k ≤ t → t ≤ maxRetries →
        runAttempt maxPolls (scripts t) = .transportTimeout) →
      runRetries maxRetries backoff maxPolls scripts
          (maxRetries + 1 - k) k delays =
        (.error (.timeoutError "Request timeout after all retries"),
          delays ++ (List.range d).map (fun t => backoff ^ (k + t))) := by
  intro d
  induction d with
  | zero =>
    intro k delays hd hk htime
    have hkeq : k = maxRetries := by omega
    have hfuel : maxRetries + 1 - k = 0 + 1 := by omega
    rw [hfuel]
    have h0 := htime k (by omega) (by omega)
    have hnlt : ¬ (k < maxRetries) := by omega
    simp [runRetries, h0, hnlt]
  | succ d ih =>
    intro k delays hd hk htime
    obtain ⟨f, hf⟩ : ∃ f, maxRetries + 1 - k = f + 1 := ⟨maxRetries - k, by omega⟩
    have hklt : k < maxRetries := by omega
    have h0 := htime k (by omega) (by omega)
    have hstep : runRetries maxRetries backoff maxPolls scripts (f + 1) k
        delays = runRetries maxRetries backoff maxPolls scripts f (k + 1)
          (delays ++ [backoff ^ k]) := by
      simp [runRetries, h0, hklt]
    have hfeq : f = maxRetries + 1 - (k + 1) := by omega
    have hnext := ih (k + 1) (delays ++ [backoff ^ k]) (by omega) (by omega)
      (fun t ht1 ht2 => htime t (by omega) ht2)
    have hlist : [backoff ^ k] ++ (List.range d).map
        (fun t => backoff ^ (k + 1 + t)) =
          (List.range (d + 1)).map (fun t => backoff ^ (k + t)) := by
      rw [List.range_succ_eq_map]
      simp only [List.map_cons, List.map_map, List.singleton_append,
        List.cons.injEq]
      refine ⟨by rw [Nat.add_zero], ?_⟩
      apply List.map_congr_left
      intro t _
      simp only [Function.comp_apply]
      congr 1
      omega
    rw [hf, hstep, hfeq, hnext, List.append_assoc, hlist]

/-- The attempt body under a passing submit runs the poll loop. -/
theorem runAttempt_of_submitOk {α : Type} (maxPolls : Nat)
    (a : AttemptScript α) (h : submitOk a) :
    runAttempt maxPolls a = runPoll a.poll maxPolls 0 := by
  obtain ⟨st, rid, hsub, hst, hrid⟩ := h
  simp [runAttempt, hsub, hst, hrid]

/-- C7: the fetcher's error mapping.  Under a passing submit: a poll
response with status 200 (after any pending 102/202 prefix) returns the
parsed body; a 429 during polling raises `SerpRateLimitError` and is not
retried (no backoff delays are recorded and remaining attempts are
unused); any other non-pending, non-200 status raises `SerpAPIError`;
exhausting `max_polls` polls without a 200 raises `SerpTimeoutError`; a
submit 429 raises `SerpRateLimitError`; a missing/falsy `response_id`
raises `SerpAPIError`.  Transport errors are retried with delay
`backoff ^ attempt` up to `max_retries` times and then surfaced. -/
theorem C7_fetcher_error_mapping {α : Type} (maxRetries : Nat)
    (backoff : ℚ) (maxPolls : Nat) (scripts : Nat → AttemptScript α) :
    (∀ j b, submitOk (scripts 0) → j < maxPolls →
      (∀ t, t < j → isPending ((scripts 0).poll t)) →
      (scripts 0).poll j = .http 200 b →
      makeSerpRequestModel maxRetries backoff maxPolls scripts =
        (.ok b, []))
    ∧ (∀ j (st : Nat) b, submitOk (scripts 0) → j < maxPolls →
        (∀ t, t < j → isPending ((scripts 0).poll t)) →
        (scripts 0).poll j = .http st b → st = 429 →
        makeSerpRequestModel maxRetries backoff maxPolls scripts =
          (.error (.rateLimitError "Rate limit exceeded during polling"),
            []))
    ∧ (∀ j (st : Nat) b, submitOk (scripts 0) → j < maxPolls →
        (∀ t, t < j → isPending ((scripts 0).poll t)) →
        (scripts 0).poll j = .http st b → st ≠ 200 → st ≠ 429 →
        ¬(st = 102 ∨ st = 202) →
        makeSerpRequestModel maxRetries backoff maxPolls scripts =
          (.error (.apiError
            ("Unexpected status during polling: " ++ toString st)), []))
    ∧ (submitOk (scripts 0) →
        (∀ t, t < maxPolls → isPending ((scripts 0).poll t)) →
        makeSerpRequestModel maxRetries backoff maxPolls scripts =
          (.error (.timeoutError "Polling timeout"), []))
    ∧ (∀ rid, (scripts 0).submit = .http 429 rid →
        makeSerpRequestModel maxRetries backoff maxPolls scripts =
          (.error (.rateLimitError "Rate limit exceeded on submit"), []))
    ∧ (∀ (st : Nat) rid, (scripts 0).submit = .http st rid → st ≠ 429 →
        rid.getD "" = "" →
        makeSerpRequestModel maxRetries backoff maxPolls scripts =
          (.error (.apiError "No response_id returned from API"), []))
    ∧ (∀ m r, m ≤ maxRetries →
        (∀ t, t < m → isTransportOutcome
          (runAttempt maxPolls (scripts t))) →
        runAttempt maxPolls (scripts m) = .final r →
        makeSerpRequestModel maxRetries backoff maxPolls scripts =
          (r, (List.range m).map (fun t => backoff ^ t)))
    ∧ ((∀ t, t ≤ maxRetries →
        runAttempt maxPolls (scripts t) = .transportTimeout) →
        makeSerpRequestModel maxRetries backoff maxPolls scripts =
          (.error (.timeoutError "Request timeout after all retries"),
            (List.range maxRetries).map (fun t => backoff ^ t))) := by
  have hfinal : ∀ r, runAttempt maxPolls (scripts 0) = .final r →
      makeSerpRequestModel maxRetries backoff maxPolls scripts = (r, []) := by
    intro r h
    unfold makeSerpRequestModel
    exact runRetries_final maxRetries backoff maxPolls scripts maxRetries 0
      [] r h
  refine ⟨?_, ?_, ?_, ?_, ?_, ?_, ?_, ?_⟩
  · intro j b hsub hj hpend h200
    apply hfinal
    rw [runAttempt_of_submitOk maxPolls _ hsub,
      runPoll_resolves _ maxPolls j hj hpend 200 b h200]
    simp
  · intro j st b hsub hj hpend hst h429
    subst h429
    apply hfinal
    rw [runAttempt_of_submitOk maxPolls _ hsub,
      runPoll_resolves _ maxPolls j hj hpend 429 b hst]
    simp
  · intro j st b hsub hj hpend hst h200 h429 hpendst
    apply hfinal
    rw [runAttempt_of_submitOk maxPolls _ hsub,
      runPoll_resolves _ maxPolls j hj hpend st b hst]
    simp [h200, h429, hpendst]
  · intro hsub hpend
    apply hfinal
    rw [runAttempt_of_submitOk maxPolls _ hsub]
    exact runPoll_timeout _ maxPolls hpend
  · intro rid hsub
    apply hfinal
    simp [runAttempt, hsub]
  · intro st rid hsub hst hrid
    apply hfinal
    simp [runAttempt, hsub, hst, hrid]
  · intro m r hm htr hfin
    unfold makeSerpRequestModel
    have h := runRetries_reaches maxRetries backoff maxPolls scripts r m 0 []
      (by omega) (fun t ht => by simpa using htr t ht) (by simpa using hfin)
    simpa using h
  · intro htime
    unfold makeSerpRequestModel
    have h := runRetries_all_timeout maxRetries backoff maxPolls scripts
      maxRetries 0 [] (by omega) (by omega)
      (fun t ht1 ht2 => htime t ht2)
    simpa using h

/-- C7, witness: the mapping applied to concrete scripts with
`max_retries = 3`, `backoff = 2`, `max_polls = 20` and bodies in `Nat`:
one pending poll then a 200 returns the body with no delays; and a
transport timeout on attempt 0 followed by a clean 200 on attempt 1 returns
the body after one backoff delay of `2 ^ 0`. -/
theorem C7_fetcher_error_mapping_witness :
    makeSerpRequestModel (α := Nat) 3 2 20
        (fun _ => ⟨.http 200 (some "id"),
          fun i => if i = 0 then .http 102 0 else .http 200 7⟩) =
      (.ok 7, [])
    ∧ makeSerpRequestModel (α := Nat) 3 2 20
        (fun k => if k = 0 then ⟨.transportTimeout, fun _ => .http 200 9⟩
          else ⟨.http 200 (some "id"), fun _ => .http 200 9⟩) =
      (.ok 9, [2 ^ 0]) := by
  constructor
  · exact (C7_fetcher_error_mapping 3 2 20 _).1 1 7
      ⟨200, "id", rfl, by decide, by decide⟩ (by decide)
      (fun t ht => by
        interval_cases t
        · exact Or.inl rfl)
      rfl
  · have h := (C7_fetcher_error_mapping (α := Nat) 3 2 20
      (fun k => if k = 0 then ⟨.transportTimeout, fun _ => .http 200 9⟩
        else ⟨.http 200 (some "id"), fun _ => .http 200 9⟩)).2.2.2.2.2.2.1
      1 (.ok 9) (by decide)
      (fun t ht => by
        interval_cases t
        · exact Or.inl rfl)
      rfl
    simpa using h

/-! ### Cache lemmas (`cache.py` / `client.py`) -/

/-- Finding a key after the in-place dict update of `cacheUpsert` on a list
where the key is present. -/
theorem find_map_update (key : String) (e2 : CacheEntryM) :
    ∀ (l : List (String × CacheEntryM)),
      (l.map (fun p => if p.1 = key then (key, e2) else p)).find?
          (fun p => p.1 = key) =
        (l.find? (fun p => p.1 = key)).map (fun _ => (key, e2)) := by
  intro l
  induction l with
  | nil => rfl
  | cons hd tl ih =>
    by_cases h : hd.1 = key
    · simp [List.find?_cons, h]
    · simp only [List.map_cons, if_neg h]
      rw [List.find?_cons_of_neg _ (by simpa using h),
        List.find?_cons_of_neg _ (by simpa using h), ih]

/-- After a dict assignment, lookup yields the assigned entry. -/
theorem cacheUpsert_find (key : String) (e : CacheEntryM)
    (l : List (String × CacheEntryM)) :
    cacheFind key (cacheUpsert key e l) = some e := by
  unfold cacheFind cacheUpsert
  split
  · rename_i hsome
    rw [find_map_update]
    obtain ⟨p, hp⟩ := Option.isSome_iff_exists.mp hsome
    simp [hp]
  · rename_i hnone
    rw [List.find?_append]
    have h0 : l.find? (fun p => decide (p.1 = key)) = none := by
      cases hfind : l.find? (fun p => decide (p.1 = key)) with
      | none => rfl
      | some p => exact absurd (by rw [hfind]; rfl) hnone
    simp [h0]

/-- After `cacheSet`, the key maps to the freshly created entry (with
`created_at = now` and the default TTL when none is passed). -/
theorem cacheSet_find (now : ℚ) (key : String) (value : SearchResultM)
    (ttl : Option Int) (c : InMemoryCacheM) :
    cacheFind key (cacheSet now key value ttl c).cache =
      some ⟨value, now, some (ttl.getD c.defaultTtl)⟩ := by
  unfold cacheSet
  dsimp only
  exact cacheUpsert_find key _ (evictLoop c).cache

/-- `InMemoryCache.get` returns a value exactly when a non-expired entry
for the key is stored, and then returns that entry's value ("fresh entry"
semantics). -/
theorem cacheGet_some_iff (now : ℚ) (key : String) (c : InMemoryCacheM)
    (v : SearchResultM) :
    (cacheGet now key c).1 = some v ↔
      ∃ e, cacheFind key c.cache = some e ∧ e.isExpired now = false ∧
        e.value = v := by
  unfold cacheGet
  cases h : cacheFind key c.cache with
  | none => simp [h]
  | some e =>
    by_cases hexp : e.isExpired now = true
    · simp [h, hexp]
    · simp only [Bool.not_eq_true] at hexp
      simp [h, hexp]

/-- C9: the aggregator's caching policy on the `search` path.  With
`use_cache` on: a cache hit (a stored, non-expired entry under the key of
(query, country, language, max_pages)) emits the cache-hit event and
returns the cached result with no upstream call; on a miss the upstream
result is returned, and it is stored (under the same key, with the cache's
default TTL) exactly when it has no errors; with `use_cache` off the cache
is untouched.  The final conjunct characterizes "fresh entry" for the hit
case. -/
theorem C9_search_caching_policy :
    ∀ (c : InMemoryCacheM) (now : ℚ) (q co la : String) (mp : Int)
      (f : SearchResultM),
      (∀ r c1, cacheGet now (generate_cache_key q co la mp) c =
          (some r, c1) →
        searchModel c now q co la mp true f = ⟨r, c1, true, false⟩)
      ∧ (∀ c1, cacheGet now (generate_cache_key q co la mp) c =
            (none, c1) → f.hasErrors = false →
          searchModel c now q co la mp true f =
            ⟨f, cacheSet now (generate_cache_key q co la mp) f none c1,
              false, true⟩
          ∧ cacheFind (generate_cache_key q co la mp)
              (searchModel c now q co la mp true f).cache.cache =
            some ⟨f, now, some c1.defaultTtl⟩)
      ∧ (∀ c1, cacheGet now (generate_cache_key q co la mp) c =
            (none, c1) → f.hasErrors = true →
          searchModel c now q co la mp true f = ⟨f, c1, false, true⟩)
      ∧ (searchModel c now q co la mp false f = ⟨f, c, false, true⟩)
      ∧ (∀ v, (cacheGet now (generate_cache_key q co la mp) c).1 = some v ↔
          ∃ e, cacheFind (generate_cache_key q co la mp) c.cache = some e ∧
            e.isExpired now = false ∧ e.value = v) := by
  intro c now q co la mp f
  refine ⟨?_, ?_, ?_, ?_, ?_⟩
  · intro r c1 h
    simp [searchModel, h]
  · intro c1 h hf
    have hmodel : searchModel c now q co la mp true f =
        ⟨f, cacheSet now (generate_cache_key q co la mp) f none c1,
          false, true⟩ := by
      simp [searchModel, h, hf]
    refine ⟨hmodel, ?_⟩
    rw [hmodel]
    exact cacheSet_find now _ f none c1
  · intro c1 h hf
    simp [searchModel, h, hf]
  · simp [searchModel]
  · intro v
    exact cacheGet_some_iff now _ c v

/-- C9, witness: on a fresh empty cache (a miss), a clean result is
returned, marked as fetched upstream, and stored under the computed key;
then, at the resulting cache, a second lookup of the same key finds the
stored entry. -/
theorem C9_search_caching_policy_witness :
    searchModel {} 0 "a" "us" "en" 25 true ⟨[], 0, []⟩ =
      ⟨⟨[], 0, []⟩,
       cacheSet 0 (generate_cache_key "a" "us" "en" 25) ⟨[], 0, []⟩ none
         { stats := { misses := 1 } }, false, true⟩
    ∧ cacheFind (generate_cache_key "a" "us" "en" 25)
        (searchModel {} 0 "a" "us" "en" 25 true ⟨[], 0, []⟩).cache.cache =
      some ⟨⟨[], 0, []⟩, 0, some 3600⟩ :=
  (C9_search_caching_policy {} 0 "a" "us" "en" 25 ⟨[], 0, []⟩).2.1
    { stats := { misses := 1 } } rfl rfl

/-! ### Stable-sort lemmas (`organic_results.sort(key=...)`) -/

/-- `insertAfterLE` is a permutation step. -/
theorem insertAfterLE_perm (x : OrganicResult) :
    ∀ (l : List OrganicResult), insertAfterLE x l ~ x :: l := by
  intro l
  induction l with
  | nil => exact List.Perm.refl _
  | cons y ys ih =>
    unfold insertAfterLE
    split
    · exact (ih.cons y).trans (List.Perm.swap x y ys)
    · exact List.Perm.refl _

/-- The sorting fold permutes its input onto the accumulator. -/
theorem sortByBest_go_perm :
    ∀ (l acc : List OrganicResult),
      l.foldl (fun acc x => insertAfterLE x acc) acc ~ acc ++ l := by
  intro l
  induction l with
  | nil => intro acc; simp
  | cons x xs ih =>
    intro acc
    calc (x :: xs).foldl (fun acc x => insertAfterLE x acc) acc
        = xs.foldl (fun acc x => insertAfterLE x acc)
            (insertAfterLE x acc) := rfl
      _ ~ insertAfterLE x acc ++ xs := ih _
      _ ~ (x :: acc) ++ xs := (insertAfterLE_perm x acc).append_right xs
      _ ~ acc ++ x :: xs := List.perm_middle.symm

/-- `sortByBest` is a permutation of its input. -/
theorem sortByBest_perm (l : List OrganicResult) : sortByBest l ~ l := by
  have h := sortByBest_go_perm l []
  simpa [sortByBest] using h

/-- `insertAfterLE` preserves sortedness by `best_position`. -/
theorem insertAfterLE_sorted (x : OrganicResult) :
    ∀ (l : List OrganicResult),
      l.Pairwise (fun a b => a.best_position ≤ b.best_position) →
      (insertAfterLE x l).Pairwise
        (fun a b => a.best_position ≤ b.best_position) := by
  intro l
  induction l with
  | nil => intro _; simp [insertAfterLE]
  | cons y ys ih =>
    intro h
    rw [List.pairwise_cons] at h
    unfold insertAfterLE
    split
    · rename_i hyx
      rw [List.pairwise_cons]
      refine ⟨?_, ih h.2⟩
      intro b hb
      have hb2 : b ∈ x :: ys := (insertAfterLE_perm x ys).mem_iff.mp hb
      rcases List.mem_cons.mp hb2 with hb2 | hb2
      · subst hb2; exact hyx
      · exact h.1 b hb2
    · rename_i hyx
      push_neg at hyx
      rw [List.pairwise_cons]
      refine ⟨?_, List.pairwise_cons.mpr h⟩
      intro b hb
      rcases List.mem_cons.mp hb with hb | hb
      · subst hb; exact le_of_lt hyx
      · exact le_trans (le_of_lt hyx) (h.1 b hb)

/-- The sorting fold keeps the accumulator sorted. -/
theorem sortByBest_go_sorted :
    ∀ (l acc : List OrganicResult),
      acc.Pairwise (fun a b => a.best_position ≤ b.best_position) →
      (l.foldl (fun acc x => insertAfterLE x acc) acc).Pairwise
        (fun a b => a.best_position ≤ b.best_position) := by
  intro l
  induction l with
  | nil => intro acc h; exact h
  | cons x xs ih => intro acc h; exact ih _ (insertAfterLE_sorted x acc h)

/-- The output of `sortByBest` is sorted ascending by `best_position`. -/
theorem sortByBest_sorted (l : List OrganicResult) :
    (sortByBest l).Pairwise
      (fun a b => a.best_position ≤ b.best_position) := by
  exact sortByBest_go_sorted l [] (by simp)

/-- Stability of one insertion on a sorted list: the elements with any
fixed `best_position` value keep their relative order, with `x` appended
after its equals. -/
theorem insertAfterLE_filter (x : OrganicResult) (k : Int) :
    ∀ (l : List OrganicResult),
      l.Pairwise (fun a b => a.best_position ≤ b.best_position) →
      (insertAfterLE x l).filter (fun o => o.best_position = k) =
        l.filter (fun o => o.best_position = k) ++
          (if x.best_position = k then [x] else []) := by
  intro l
  induction l with
  | nil =>
    intro _
    show List.filter (fun o => o.best_position = k) [x] = _
    rw [List.filter_cons]
    split <;> simp_all
  | cons y ys ih =>
    intro h
    rw [List.pairwise_cons] at h
    unfold insertAfterLE
    split
    · rename_i hyx
      rw [List.filter_cons, List.filter_cons]
      split
      · rw [ih h.2, List.cons_append]
      · exact ih h.2
    · rename_i hyx
      push_neg at hyx
      have hempty : x.best_position = k →
          (y :: ys).filter (fun o => o.best_position = k) = [] := by
        intro hxk
        apply List.filter_eq_nil_iff.mpr
        intro a ha
        rcases List.mem_cons.mp ha with ha | ha
        · subst ha
          simp only [decide_eq_true_eq]
          omega
        · have := h.1 a ha
          simp only [decide_eq_true_eq]
          omega
      rw [List.filter_cons]
      split
      · rename_i hxk
        simp only [decide_eq_true_eq] at hxk
        rw [hempty hxk]
        simp [hxk]
      · rename_i hxk
        simp only [decide_eq_true_eq] at hxk
        simp [hxk]

/-- Stability of the sorting fold. -/
theorem sortByBest_go_filter (k : Int) :
    ∀ (l acc : List OrganicResult),
      acc.Pairwise (fun a b => a.best_position ≤ b.best_position) →
      (l.foldl (fun acc x => insertAfterLE x acc) acc).filter
          (fun o => o.best_position = k) =
        acc.filter (fun o => o.best_position = k) ++
          l.filter (fun o => o.best_position = k) := by
  intro l
  induction l with
  | nil => intro acc _; simp
  | cons x xs ih =>
    intro acc h
    have hstep := ih (insertAfterLE x acc) (insertAfterLE_sorted x acc h)
    calc ((x :: xs).foldl (fun acc x => insertAfterLE x acc) acc).filter
          (fun o => o.best_position = k)
        = ((insertAfterLE x acc).filter (fun o => o.best_position = k)) ++
            xs.filter (fun o => o.best_position = k) := hstep
      _ = (acc.filter (fun o => o.best_position = k) ++
            (if x.best_position = k then [x] else [])) ++
            xs.filter (fun o => o.best_position = k) := by
          rw [insertAfterLE_filter x k acc h]
      _ = acc.filter (fun o => o.best_position = k) ++
            (x :: xs).filter (fun o => o.best_position = k) := by
          rw [List.append_assoc, List.filter_cons]
          split <;> simp_all

/-- Stability of `sortByBest`: for every key value, the sorted list's
elements with that `best_position` are exactly the input's, in input
order. -/
theorem sortByBest_filter (l : List OrganicResult) (k : Int) :
    (sortByBest l).filter (fun o => o.best_position = k) =
      l.filter (fun o => o.best_position = k) := by
  have h := sortByBest_go_filter k l [] (by simp)
  simpa [sortByBest] using h

/-- C5: output ordering of `fetch_all_pages`.  For every completion list,
the organic list of the produced `SearchResult` is the stable sort by
ascending `best_position` of the finalized dedup-map entries taken in
first-insertion order: it is pairwise sorted by `best_position`, it is a
permutation of the finalized entries, and for every value `k` the entries
with `best_position = k` appear exactly in dedup-map (first-insertion)
order.  (`mergePage` appends a new URL at the end of the map and updates an
existing URL in place, so the map order is first-insertion order.) -/
theorem C5_output_ordering (limit : Nat) (cs : List Completion) :
    ((fetchAllPagesModel limit cs).organic.Pairwise
      (fun a b => a.best_position ≤ b.best_position))
    ∧ ((fetchAllPagesModel limit cs).organic ~
        (consumeCompletions limit cs initState).organicByUrl.map
          finalizeEntry)
    ∧ (∀ k, (fetchAllPagesModel limit cs).organic.filter
          (fun o => o.best_position = k) =
        ((consumeCompletions limit cs initState).organicByUrl.map
          finalizeEntry).filter (fun o => o.best_position = k)) := by
  refine ⟨sortByBest_sorted _, sortByBest_perm _, fun k => sortByBest_filter _ k⟩

/-! ### Dedup-map well-formedness (nonempty, unique links) -/

/-- `insertItem` preserves the dedup-map links up to possibly appending the
new item's link, and preserves well-formedness. -/
theorem insertItem_wf (page : Nat) (it : OrganicItem)
    (m : List MergeEntry) (h : WFmap m) :
    WFmap (insertItem page m it) := by
  obtain ⟨h1, h2⟩ := h
  unfold insertItem
  split
  · exact ⟨h1, h2⟩
  · split
    · constructor
      · intro e he
        rw [List.mem_map] at he
        obtain ⟨e0, he0, heq⟩ := he
        subst heq
        split
        · simpa using h1 e0 he0
        · exact h1 e0 he0
      · have hlinks : mapLinks (m.map (fun e =>
            if e.link = it.link then
              { e with positions := e.positions ++ [it.rank],
                       pages := e.pages ++ [page] }
            else e)) = mapLinks m := by
          unfold mapLinks
          rw [List.map_map]
          apply List.map_congr_left
          intro e _
          simp only [Function.comp_apply]
          split <;> rfl
        rw [hlinks]
        exact h2
    · rename_i hne hnotin
      constructor
      · intro e he
        rcases List.mem_append.mp he with he | he
        · exact h1 e he
        · rw [List.mem_singleton] at he
          subst he
          exact hne
      · unfold mapLinks
        rw [List.map_append]
        apply List.Nodup.append h2 (by simp)
        intro a ha hb
        simp only [List.map_cons, List.map_nil, List.mem_singleton] at hb
        subst hb
        unfold mapLinks at ha
        rw [List.mem_map] at ha
        obtain ⟨e0, he0, heq⟩ := ha
        have : m.any (fun e => e.link = it.link) = true :=
          List.any_eq_true.mpr ⟨e0, he0, by simpa using heq⟩
        simp_all

/-- `mergePage` preserves well-formedness. -/
theorem mergePage_wf (page : Nat) (items : List OrganicItem) :
    ∀ (m : List MergeEntry), WFmap m → WFmap (mergePage m page items) := by
  induction items with
  | nil => intro m h; exact h
  | cons it rest ih =>
    intro m h
    exact ih (insertItem page m it) (insertItem_wf page it m h)

/-- `stepCompletion` preserves well-formedness of the dedup map. -/
theorem stepCompletion_wf (s : LoopState) (c : Completion)
    (h : WFmap s.organicByUrl) :
    WFmap (stepCompletion s c).organicByUrl := by
  cases c with
  | err page msg => exact h
  | ok page r =>
    unfold stepCompletion
    dsimp only
    split
    · split
      · exact h
      · exact mergePage_wf page r.organic _ h
    · exact h

/-- The consumption loop preserves well-formedness of the dedup map. -/
theorem consumeCompletions_wf (limit : Nat) :
    ∀ (cs : List Completion) (s : LoopState), WFmap s.organicByUrl →
      WFmap (consumeCompletions limit cs s).organicByUrl := by
  intro cs
  induction cs with
  | nil => intro s h; exact h
  | cons c rest ih =>
    intro s h
    unfold consumeCompletions
    dsimp only
    split
    · exact stepCompletion_wf s c h
    · exact ih _ (stepCompletion_wf s c h)

/-- C10: every upstream organic item with a missing or empty `link` is
skipped entirely by the merge (`insertItem` leaves the map unchanged), and
consequently, for every completion list, every `OrganicResult` in the
output has a nonempty link and no two entries share a link. -/
theorem C10_link_invariants (limit : Nat) (cs : List Completion) :
    (∀ (page : Nat) (m : List MergeEntry) (it : OrganicItem),
      it.link = "" → insertItem page m it = m)
    ∧ (∀ r ∈ (fetchAllPagesModel limit cs).organic, r.link ≠ "")
    ∧ ((fetchAllPagesModel limit cs).organic.map
        (fun o => o.link)).Nodup := by
  have hwf : WFmap (consumeCompletions limit cs initState).organicByUrl :=
    consumeCompletions_wf limit cs initState
      ⟨by intro e he; simp [initState] at he,
       by simp [initState, mapLinks]⟩
  have hperm : (fetchAllPagesModel limit cs).organic ~
      (consumeCompletions limit cs initState).organicByUrl.map
        finalizeEntry := sortByBest_perm _
  have hlinkpres : ((consumeCompletions limit cs
      initState).organicByUrl.map finalizeEntry).map (fun o => o.link) =
        mapLinks (consumeCompletions limit cs initState).organicByUrl := by
    unfold mapLinks
    rw [List.map_map]
    apply List.map_congr_left
    intro e _
    rfl
  refine ⟨?_, ?_, ?_⟩
  · intro page m it hit
    unfold insertItem
    rw [if_pos hit]
  · intro r hr
    have hr2 := hperm.mem_iff.mp hr
    rw [List.mem_map] at hr2
    obtain ⟨e, he, heq⟩ := hr2
    subst heq
    exact hwf.1 e he
  · have hpermlinks : (fetchAllPagesModel limit cs).organic.map
        (fun o => o.link) ~ mapLinks (consumeCompletions limit cs
          initState).organicByUrl := by
      rw [← hlinkpres]
      exact hperm.map _
    exact hpermlinks.nodup_iff.mpr hwf.2

/-! ### Dedup-map lookup characterization -/

/-- Combining with no further occurrences is the identity. -/
theorem combineEntry_nil (url : String) (x : Option MergeEntry) :
    combineEntry url x [] = x := by
  cases x with
  | none => rfl
  | some e => simp [combineEntry, extendEntry]

/-- Combining is associative over occurrence concatenation. -/
theorem combineEntry_append (url : String) (x : Option MergeEntry)
    (a b : List (Nat × OrganicItem)) :
    combineEntry url (combineEntry url x a) b =
      combineEntry url x (a ++ b) := by
  cases x with
  | some e => simp [combineEntry, extendEntry]
  | none =>
    cases a with
    | nil => simp [combineEntry, entryOf]
    | cons o rest =>
      obtain ⟨p, it⟩ := o
      simp [combineEntry, entryOf, extendEntry]

/-- `find?` commutes with a map that preserves the predicate. -/
theorem find?_map_preserving {α : Type} (f : α → α) (p : α → Bool)
    (hp : ∀ e, p (f e) = p e) :
    ∀ (m : List α), (m.map f).find? p = (m.find? p).map f := by
  intro m
  induction m with
  | nil => rfl
  | cons e es ih =>
    rw [List.map_cons]
    cases hpe : p e with
    | true =>
      rw [List.find?_cons_of_pos _ (by rw [hp]; exact hpe),
        List.find?_cons_of_pos _ hpe, Option.map_some']
    | false =>
      rw [List.find?_cons_of_neg _ (by rw [hp, hpe]; simp),
        List.find?_cons_of_neg _ (by rw [hpe]; simp), ih]

/-- The effect of one `insertItem` on the lookup of any nonempty URL. -/
theorem insertItem_lookup (url : String) (hurl : url ≠ "") (page : Nat)
    (m : List MergeEntry) (it : OrganicItem) :
    lookupUrl url (insertItem page m it) =
      combineEntry url (lookupUrl url m) (itemOcc url page it) := by
  by_cases hblank : it.link = ""
  · have hocc : itemOcc url page it = [] := by
      unfold itemOcc
      rw [if_neg]
      rw [hblank]
      exact fun h => hurl h.symm
    rw [hocc, combineEntry_nil]
    unfold insertItem
    rw [if_pos hblank]
  · unfold insertItem
    rw [if_neg hblank]
    by_cases hany : (m.any fun e => e.link = it.link) = true
    · rw [if_pos hany]
      unfold lookupUrl
      rw [find?_map_preserving _ _ (by
        intro e
        split <;> rfl)]
      by_cases hlu : it.link = url
      · subst hlu
        have hocc : itemOcc it.link page it = [(page, it)] := by
          simp [itemOcc]
        rw [hocc]
        cases hfind : m.find? (fun e => decide (e.link = it.link)) with
        | none =>
          exfalso
          rw [List.any_eq_true] at hany
          obtain ⟨e, he, hlink⟩ := hany
          have hsome : (m.find?
              (fun e => decide (e.link = it.link))).isSome := by
            rw [List.find?_isSome]
            exact ⟨e, he, hlink⟩
          rw [hfind] at hsome
          simp at hsome
        | some e =>
          have hlink : e.link = it.link := by
            have h2 := List.find?_some hfind
            simpa using h2
          rw [Option.map_some', if_pos hlink]
          simp [combineEntry, extendEntry]
      · have hocc : itemOcc url page it = [] := by
          simp [itemOcc, hlu]
        rw [hocc, combineEntry_nil]
        cases hfind : m.find? (fun e => decide (e.link = url)) with
        | none => rfl
        | some e =>
          have hlink : e.link = url := by
            have h2 := List.find?_some hfind
            simpa using h2
          have hcond : ¬ (e.link = it.link) := by
            rw [hlink]
            exact fun h => hlu h.symm
          rw [Option.map_some', if_neg hcond]
    · rw [if_neg hany]
      unfold lookupUrl
      rw [List.find?_append]
      have hnewlink :
          (MergeEntry.mk it.link it.rank it.title it.description
            [it.rank] [page]).link = it.link := rfl
      by_cases hlu : it.link = url
      · have hocc : itemOcc url page it = [(page, it)] := by
          simp [itemOcc, hlu]
        have hnone : m.find? (fun e => decide (e.link = url)) = none := by
          rw [List.find?_eq_none]
          intro e he
          simp only [decide_eq_true_eq]
          intro hlink
          rw [← hlu] at hlink
          exact hany (List.any_eq_true.mpr ⟨e, he, by simpa using hlink⟩)
        rw [hnone, hocc]
        rw [List.find?_cons_of_pos _ (by
          rw [hnewlink]
          simpa using hlu)]
        simp [combineEntry, entryOf, hlu]
      · have hocc : itemOcc url page it = [] := by
          simp [itemOcc, hlu]
        rw [hocc, combineEntry_nil]
        rw [List.find?_cons_of_neg _ (by
          rw [hnewlink]
          simpa using hlu), List.find?_nil]
        cases m.find? (fun e => decide (e.link = url)) <;> rfl

/-- The effect of one merged page on the lookup of any nonempty URL. -/
theorem mergePage_lookup (url : String) (hurl : url ≠ "") (page : Nat) :
    ∀ (items : List OrganicItem) (m : List MergeEntry),
      lookupUrl url (mergePage m page items) =
        combineEntry url (lookupUrl url m)
          (items.flatMap (itemOcc url page)) := by
  intro items
  induction items with
  | nil =>
    intro m
    rw [List.flatMap_nil, combineEntry_nil]
    rfl
  | cons it rest ih =>
    intro m
    have hstep : mergePage m page (it :: rest) =
        mergePage (insertItem page m it) page rest := rfl
    rw [hstep, ih, insertItem_lookup url hurl page m it,
      combineEntry_append, List.flatMap_cons]

/-- `pageOccs` as a flatMap of per-item occurrences (for merged pages). -/
theorem filter_map_eq_flatMap (url : String) (page : Nat) :
    ∀ (items : List OrganicItem),
      (items.filter (fun it => it.link = url)).map (fun it => (page, it)) =
        items.flatMap (itemOcc url page) := by
  intro items
  induction items with
  | nil => rfl
  | cons it rest ih =>
    rw [List.filter_cons, List.flatMap_cons]
    by_cases h : it.link = url
    · rw [if_pos (by simpa using h)]
      rw [List.map_cons, ih]
      simp [itemOcc, h]
    · rw [if_neg (by simpa using h)]
      rw [ih]
      simp [itemOcc, h]

/-- The effect of one completion on the lookup of any nonempty URL. -/
theorem stepCompletion_lookup (url : String) (hurl : url ≠ "")
    (s : LoopState) (c : Completion) :
    lookupUrl url (stepCompletion s c).organicByUrl =
      combineEntry url (lookupUrl url s.organicByUrl) (pageOccs url c) := by
  cases c with
  | err page msg =>
    rw [show pageOccs url (.err page msg) = [] from rfl, combineEntry_nil]
    rfl
  | ok page r =>
    unfold stepCompletion
    dsimp only
    by_cases hempty : r.organic.isEmpty
    · have hzero : pageOccs url (.ok page r) = [] := by
        simp [pageOccs, hempty]
      rw [hzero, combineEntry_nil]
      by_cases htr : r.truthy
      · rw [if_pos htr, if_pos hempty]
      · rw [if_neg htr]
    · have htruthy : r.truthy = true := by
        simp [PageResponse.truthy, hempty]
      rw [if_pos htruthy, if_neg hempty]
      have hocc : pageOccs url (.ok page r) =
          r.organic.flatMap (itemOcc url page) := by
        simp only [pageOccs]
        rw [if_neg hempty]
        exact filter_map_eq_flatMap url page r.organic
      rw [hocc]
      exact mergePage_lookup url hurl page r.organic s.organicByUrl

/-- The dedup-map entry of any nonempty URL after consuming a completion
list is determined by the URL's occurrence list. -/
theorem foldSteps_lookup (url : String) (hurl : url ≠ "") :
    ∀ (cs : List Completion) (s : LoopState),
      lookupUrl url ((cs.foldl stepCompletion s).organicByUrl) =
        combineEntry url (lookupUrl url s.organicByUrl)
          (occurrences url cs) := by
  intro cs
  induction cs with
  | nil =>
    intro s
    rw [show occurrences url [] = [] from rfl, combineEntry_nil]
    rfl
  | cons c rest ih =>
    intro s
    rw [List.foldl_cons, ih, stepCompletion_lookup url hurl s c,
      combineEntry_append]
    rfl

/-- From the initial state, the entry is exactly `entryOf` the occurrence
list. -/
theorem foldSteps_lookup_init (url : String) (hurl : url ≠ "")
    (cs : List Completion) :
    lookupUrl url ((cs.foldl stepCompletion initState).organicByUrl) =
      entryOf url (occurrences url cs) := by
  rw [foldSteps_lookup url hurl cs initState]
  rfl

/-! ### Early-termination behaviour (C6) -/

/-- The consumption loop processes exactly the shortest prefix after which
`consecutive_empty` reaches the limit; its final state is the fold of the
steps over that prefix. -/
theorem consumeCompletions_prefix (limit : Nat) (cs : List Completion)
    (s : LoopState) (hs : s.consecutiveEmpty < limit) :
    ∃ n, n ≤ cs.length ∧
      consumeCompletions limit cs s = (cs.take n).foldl stepCompletion s
      ∧ (∀ k, k < n →
          ((cs.take k).foldl stepCompletion s).consecutiveEmpty < limit)
      ∧ (n < cs.length →
          limit ≤ ((cs.take n).foldl stepCompletion s).consecutiveEmpty) := by
  induction cs generalizing s with
  | nil => exact ⟨0, by simp, rfl, by omega, by simp⟩
  | cons c rest ih =>
    by_cases hstop : limit ≤ (stepCompletion s c).consecutiveEmpty
    · refine ⟨1, by simp, ?_, ?_, ?_⟩
      · unfold consumeCompletions
        dsimp only
        rw [if_pos hstop]
        rfl
      · intro k hk
        interval_cases k
        simpa using hs
      · intro _
        simpa using hstop
    · push_neg at hstop
      obtain ⟨n, hn, heq, hlt, hge⟩ := ih (stepCompletion s c) hstop
      refine ⟨n + 1, by simpa using hn, ?_, ?_, ?_⟩
      · unfold consumeCompletions
        dsimp only
        rw [if_neg (by omega)]
        rw [heq]
        rfl
      · intro k hk
        cases k with
        | zero => simpa using hs
        | succ k =>
          have hk2 : k < n := by omega
          have h3 := hlt k hk2
          simpa using h3
      · intro hlen
        have h3 := hge (by simpa using hlen)
        simpa using h3

/-- C6, counterexample: the claim says every errored or empty-organic
completion increments `consecutive_empty`.  A successful completion whose
response body parses to the empty JSON object `{}` (modelled by
`organic = []`, `extra = false`) is falsy in Python (`elif response:`
fails), so neither branch runs: its organic list is empty, yet
`consecutive_empty` stays 0. -/
theorem C6_empty_dict_cex :
    (PageResponse.mk [] false).organic = []
    ∧ (consumeCompletions 3 [.ok 1 (PageResponse.mk [] false)]
        initState).consecutiveEmpty = 0
    ∧ (consumeCompletions 3 [.ok 1 (PageResponse.mk [] false)]
        initState).pagesFetched = 1 := by
  refine ⟨rfl, by decide, by decide⟩

/-- C6, amended: an errored completion increments `consecutive_empty`, as
does a successful completion with an empty organic list whose response dict
is nonempty (truthy); a success whose whole response dict is empty leaves
`consecutive_empty` unchanged; a success with nonempty organic resets it to
0; and the loop consumes exactly the shortest prefix after which
`consecutive_empty` reaches `consecutive_empty_limit` (cancelling the
rest), the final state being the fold of the steps over that consumed
prefix — so data merged from already-consumed completions is retained. -/
theorem C6_early_termination :
    (∀ (s : LoopState) (page : Nat) (msg : String),
      (stepCompletion s (.err page msg)).consecutiveEmpty =
          s.consecutiveEmpty + 1
        ∧ (stepCompletion s (.err page msg)).errors =
          s.errors ++ ["Page " ++ toString page ++ ": " ++ msg]
        ∧ (stepCompletion s (.err page msg)).organicByUrl = s.organicByUrl)
    ∧ (∀ (s : LoopState) (page : Nat) (r : PageResponse),
        r.truthy = true → r.organic = [] →
        (stepCompletion s (.ok page r)).consecutiveEmpty =
          s.consecutiveEmpty + 1)
    ∧ (∀ (s : LoopState) (page : Nat) (r : PageResponse),
        r.organic ≠ [] →
        (stepCompletion s (.ok page r)).consecutiveEmpty = 0)
    ∧ (∀ (s : LoopState) (page : Nat) (r : PageResponse),
        r.truthy = false →
        (stepCompletion s (.ok page r)).consecutiveEmpty =
          s.consecutiveEmpty)
    ∧ (∀ (limit : Nat) (cs : List Completion) (s : LoopState),
        s.consecutiveEmpty < limit →
        ∃ n, n ≤ cs.length ∧
          consumeCompletions limit cs s = (cs.take n).foldl stepCompletion s
          ∧ (∀ k, k < n →
              ((cs.take k).foldl stepCompletion s).consecutiveEmpty < limit)
          ∧ (n < cs.length →
              limit ≤ ((cs.take n).foldl
                stepCompletion s).consecutiveEmpty)) := by
  refine ⟨?_, ?_, ?_, ?_, ?_⟩
  · intro s page msg
    exact ⟨rfl, rfl, rfl⟩
  · intro s page r htr hor
    unfold stepCompletion
    dsimp only
    rw [if_pos htr, if_pos (by simp [hor])]
  · intro s page r hor
    unfold stepCompletion
    dsimp only
    rw [if_pos (by simp [PageResponse.truthy, hor]),
      if_neg (by simpa using hor)]
  · intro s page r htr
    unfold stepCompletion
    dsimp only
    rw [if_neg (by simp [htr])]
  · intro limit cs s hs
    exact consumeCompletions_prefix limit cs s hs

/-- C6, witness: the stop property applied to a concrete run with
`limit = 3`: three consecutive errors followed by a successful page; the
loop consumes exactly the three errors and never reaches the fourth
completion. -/
theorem C6_early_termination_witness :
    ∃ n, n ≤ ([Completion.err 1 "x", Completion.err 2 "y",
        Completion.err 3 "z",
        Completion.ok 4 (PageResponse.mk
          [OrganicItem.mk "a" "t" none 1] true)] : List Completion).length ∧
      consumeCompletions 3 [Completion.err 1 "x", Completion.err 2 "y",
          Completion.err 3 "z",
          Completion.ok 4 (PageResponse.mk
            [OrganicItem.mk "a" "t" none 1] true)] initState =
        (([Completion.err 1 "x", Completion.err 2 "y", Completion.err 3 "z",
          Completion.ok 4 (PageResponse.mk
            [OrganicItem.mk "a" "t" none 1] true)] :
              List Completion).take n).foldl stepCompletion initState
      ∧ (∀ k, k < n →
          ((([Completion.err 1 "x", Completion.err 2 "y",
            Completion.err 3 "z",
            Completion.ok 4 (PageResponse.mk
              [OrganicItem.mk "a" "t" none 1] true)] :
                List Completion).take k).foldl
                  stepCompletion initState).consecutiveEmpty < 3)
      ∧ (n < ([Completion.err 1 "x", Completion.err 2 "y",
          Completion.err 3 "z",
          Completion.ok 4 (PageResponse.mk
            [OrganicItem.mk "a" "t" none 1] true)] :
              List Completion).length →
          3 ≤ ((([Completion.err 1 "x", Completion.err 2 "y",
            Completion.err 3 "z",
            Completion.ok 4 (PageResponse.mk
              [OrganicItem.mk "a" "t" none 1] true)] :
                List Completion).take n).foldl
                  stepCompletion initState).consecutiveEmpty) :=
  C6_early_termination.2.2.2.2 3 [Completion.err 1 "x",
    Completion.err 2 "y", Completion.err 3 "z",
    Completion.ok 4 (PageResponse.mk
      [OrganicItem.mk "a" "t" none 1] true)] initState (by decide)

/-! ### Minimum and rounding arithmetic (for C2 / C1) -/

/-- The fold underlying `listMinInt` is bounded by its accumulator. -/
theorem foldl_min_le_init : ∀ (xs : List Int) (a : Int),
    xs.foldl min a ≤ a := by
  intro xs
  induction xs with
  | nil => intro a; exact le_refl a
  | cons x xs ih =>
    intro a
    calc (x :: xs).foldl min a = xs.foldl min (min a x) := rfl
      _ ≤ min a x := ih (min a x)
      _ ≤ a := min_le_left a x

/-- The fold underlying `listMinInt` is a lower bound of the list. -/
theorem foldl_min_le_mem : ∀ (xs : List Int) (a x : Int), x ∈ xs →
    xs.foldl min a ≤ x := by
  intro xs
  induction xs with
  | nil => intro a x hx; simp at hx
  | cons y ys ih =>
    intro a x hx
    rcases List.mem_cons.mp hx with hx | hx
    · subst hx
      calc (x :: ys).foldl min a = ys.foldl min (min a x) := rfl
        _ ≤ min a x := foldl_min_le_init ys (min a x)
        _ ≤ x := min_le_right a x
    · exact ih (min a y) x hx

/-- The fold underlying `listMinInt` yields the accumulator or a list
member. -/
theorem foldl_min_mem : ∀ (xs : List Int) (a : Int),
    xs.foldl min a = a ∨ xs.foldl min a ∈ xs := by
  intro xs
  induction xs with
  | nil => intro a; exact Or.inl rfl
  | cons y ys ih =>
    intro a
    rcases ih (min a y) with h | h
    · rcases min_choice a y with hm | hm
      · exact Or.inl (by rw [show (y :: ys).foldl min a =
          ys.foldl min (min a y) from rfl, h, hm])
      · refine Or.inr (List.mem_cons.mpr (Or.inl ?_))
        rw [show (y :: ys).foldl min a = ys.foldl min (min a y) from rfl,
          h, hm]
    · exact Or.inr (List.mem_cons.mpr (Or.inr h))

/-- `listMinInt` is a lower bound. -/
theorem listMinInt_le (ps : List Int) : ∀ x ∈ ps, listMinInt ps ≤ x := by
  cases ps with
  | nil => intro x hx; simp at hx
  | cons a xs =>
    intro x hx
    rcases List.mem_cons.mp hx with hx | hx
    · subst hx
      exact foldl_min_le_init xs x
    · exact foldl_min_le_mem xs a x hx

/-- `listMinInt` of a nonempty list is a member. -/
theorem listMinInt_mem (ps : List Int) (h : ps ≠ []) :
    listMinInt ps ∈ ps := by
  cases ps with
  | nil => exact absurd rfl h
  | cons a xs =>
    rcases foldl_min_mem xs a with h2 | h2
    · exact List.mem_cons.mpr (Or.inl (by simpa [listMinInt] using h2))
    · exact List.mem_cons.mpr (Or.inr (by simpa [listMinInt] using h2))

/-- A lower bound of a list bounds its sum times the length. -/
theorem len_mul_le_sum (b : Int) : ∀ (ps : List Int), (∀ x ∈ ps, b ≤ x) →
    (ps.length : Int) * b ≤ ps.sum := by
  intro ps
  induction ps with
  | nil => intro _; simp
  | cons x xs ih =>
    intro h
    have h1 : b ≤ x := h x (List.mem_cons_self x xs)
    have h2 : (xs.length : Int) * b ≤ xs.sum :=
      ih (fun y hy => h y (List.mem_cons.mpr (Or.inr hy)))
    rw [List.length_cons, List.sum_cons]
    push_cast
    linarith

/-- Round-half-even never moves down by more than a half. -/
theorem roundHalfEven_ge (q : ℚ) : q - 1 / 2 ≤ (roundHalfEven q : ℚ) := by
  have h0 : (⌊q⌋ : ℚ) ≤ q := Int.floor_le q
  have h1 : q < (⌊q⌋ : ℚ) + 1 := Int.lt_floor_add_one q
  unfold roundHalfEven
  dsimp only
  split
  · linarith
  · split
    · push_cast
      linarith
    · split
      · linarith
      · push_cast
        linarith

/-- The minimum never exceeds the rounded average (`best_position ≤
avg_position`): the mean of a nonempty integer list is at least its
minimum, and rounding the mean to two decimals cannot drop below an integer
bound. -/
theorem best_le_avg (ps : List Int) (hne : ps ≠ []) :
    (listMinInt ps : ℚ) ≤ pyRound2 ((ps.sum : ℚ) / (ps.length : ℚ)) := by
  have hlen : 0 < (ps.length : ℚ) := by
    have h2 : 0 < ps.length := List.length_pos.mpr hne
    exact_mod_cast h2
  have hsum : (ps.length : Int) * listMinInt ps ≤ ps.sum :=
    len_mul_le_sum (listMinInt ps) ps (listMinInt_le ps)
  have hm : (listMinInt ps : ℚ) ≤ (ps.sum : ℚ) / (ps.length : ℚ) := by
    rw [le_div_iff₀ hlen]
    have h3 : ((ps.length : Int) : ℚ) * (listMinInt ps : ℚ) ≤
        ((ps.sum : Int) : ℚ) := by exact_mod_cast hsum
    push_cast at h3 ⊢
    linarith
  have hr := roundHalfEven_ge ((ps.sum : ℚ) / (ps.length : ℚ) * 100)
  have hz : (100 : Int) * listMinInt ps ≤
      roundHalfEven ((ps.sum : ℚ) / (ps.length : ℚ) * 100) := by
    by_contra hc
    push_neg at hc
    have hc2 : roundHalfEven ((ps.sum : ℚ) / (ps.length : ℚ) * 100) + 1 ≤
        100 * listMinInt ps := by omega
    have hc3 : (roundHalfEven ((ps.sum : ℚ) / (ps.length : ℚ) * 100) : ℚ)
        + 1 ≤ 100 * (listMinInt ps : ℚ) := by exact_mod_cast hc2
    nlinarith
  unfold pyRound2
  rw [le_div_iff₀ (by norm_num : (0 : ℚ) < 100)]
  have hz2 : (100 : ℚ) * (listMinInt ps : ℚ) ≤
      (roundHalfEven ((ps.sum : ℚ) / (ps.length : ℚ) * 100) : ℚ) := by
    exact_mod_cast hz
  linarith

/-! ### Entry-shape lemmas and per-page occurrence bounds -/

/-- The fields a nonempty occurrence list determines. -/
theorem entryOf_fields (url : String) :
    ∀ (os : List (Nat × OrganicItem)) (e : MergeEntry),
      entryOf url os = some e →
      e.positions = os.map (fun o => o.2.rank) ∧
      e.pages = os.map (fun o => o.1) ∧ e.link = url ∧ os ≠ [] := by
  intro os e h
  cases os with
  | nil => exact absurd h (by simp [entryOf])
  | cons o rest =>
    obtain ⟨p, it⟩ := o
    simp only [entryOf, Option.some_inj] at h
    subst h
    refine ⟨rfl, rfl, rfl, by simp⟩

/-- In a well-formed dedup map, every entry is found under its own link. -/
theorem mem_lookup (e : MergeEntry) :
    ∀ (m : List MergeEntry), WFmap m → e ∈ m →
      lookupUrl e.link m = some e := by
  intro m
  induction m with
  | nil => intro _ he; simp at he
  | cons e0 es ih =>
    intro hwf he
    rcases List.mem_cons.mp he with he | he
    · subst he
      unfold lookupUrl
      rw [List.find?_cons_of_pos _ (by simp)]
    · have hne : ¬ (e0.link = e.link) := by
        intro hcontra
        have h1 : e.link ∈ mapLinks es :=
          List.mem_map.mpr ⟨e, he, rfl⟩
        have h2 := hwf.2
        unfold mapLinks at h2
        rw [List.map_cons, List.nodup_cons] at h2
        exact h2.1 (by rw [hcontra]; exact h1)
      unfold lookupUrl
      rw [List.find?_cons_of_neg _ (by simpa using hne)]
      exact ih ⟨fun x hx => hwf.1 x (List.mem_cons.mpr (Or.inr hx)),
        by
          have h2 := hwf.2
          unfold mapLinks at h2 ⊢
          rw [List.map_cons, List.nodup_cons] at h2
          exact h2.2⟩ he

/-- With unique nonempty links on a page, at most one item matches a given
nonempty URL. -/
theorem filter_link_length_le_one (url : String) (hurl : url ≠ "") :
    ∀ (items : List OrganicItem),
      ((items.filter (fun it => it.link ≠ "")).map
        (fun it => it.link)).Nodup →
      (items.filter (fun it => it.link = url)).length ≤ 1 := by
  intro items
  induction items with
  | nil => intro _; simp
  | cons it rest ih =>
    intro hl
    by_cases hiturl : it.link = url
    · rw [List.filter_cons_of_pos (by simpa using hiturl)]
      have hblank : (it.link ≠ "") := by rw [hiturl]; exact hurl
      rw [List.filter_cons_of_pos (by simpa using hblank)] at hl
      rw [List.map_cons, List.nodup_cons] at hl
      have hrest : rest.filter (fun it => it.link = url) = [] := by
        rw [List.filter_eq_nil_iff]
        intro a ha
        simp only [decide_eq_true_eq]
        intro haurl
        apply hl.1
        rw [List.mem_map]
        refine ⟨a, ?_, by rw [haurl, hiturl]⟩
        rw [List.mem_filter]
        exact ⟨ha, by simp [haurl, hurl]⟩
      simp [hrest]
    · rw [List.filter_cons_of_neg (by simpa using hiturl)]
      apply ih
      by_cases hblank : it.link ≠ ""
      · rw [List.filter_cons_of_pos (by simpa using hblank)] at hl
        rw [List.map_cons, List.nodup_cons] at hl
        exact hl.2
      · rw [List.filter_cons_of_neg (by simpa using hblank)] at hl
        exact hl

/-- Every page number among a URL's occurrences comes from the completion
list. -/
theorem occurrences_pages_subset (url : String) :
    ∀ (cs : List Completion) (x : Nat),
      x ∈ (occurrences url cs).map (fun o => o.1) →
      x ∈ cs.map Completion.pageNum := by
  intro cs
  induction cs with
  | nil => intro x hx; simp [occurrences] at hx
  | cons c rest ih =>
    intro x hx
    rw [show occurrences url (c :: rest) =
      pageOccs url c ++ occurrences url rest from rfl, List.map_append,
      List.mem_append] at hx
    rcases hx with hx | hx
    · cases c with
      | err p msg => simp [pageOccs] at hx
      | ok p r =>
        simp only [pageOccs] at hx
        split at hx
        · simp at hx
        · rw [List.map_map, List.mem_map] at hx
          obtain ⟨it, _, heq⟩ := hx
          rw [List.map_cons, List.mem_cons]
          exact Or.inl (by rw [← heq]; rfl)
    · rw [List.map_cons, List.mem_cons]
      exact Or.inr (ih x hx)

/-- Lists of length at most one have no duplicates. -/
theorem nodup_of_length_le_one {α : Type} (l : List α)
    (h : l.length ≤ 1) : l.Nodup := by
  cases l with
  | nil => exact List.nodup_nil
  | cons x xs =>
    cases xs with
    | nil => simp
    | cons y ys => simp at h

/-- Under distinct page numbers and per-page unique links, the page list of
any URL's occurrences has no duplicates. -/
theorem occurrences_pages_nodup (url : String) (hurl : url ≠ "") :
    ∀ (cs : List Completion),
      (cs.map Completion.pageNum).Nodup →
      (∀ (page : Nat) (r : PageResponse), Completion.ok page r ∈ cs →
        ((r.organic.filter (fun it => it.link ≠ "")).map
          (fun it => it.link)).Nodup) →
      ((occurrences url cs).map (fun o => o.1)).Nodup := by
  intro cs
  induction cs with
  | nil => intro _ _; simp [occurrences]
  | cons c rest ih =>
    intro hpages hlinks
    rw [show occurrences url (c :: rest) =
      pageOccs url c ++ occurrences url rest from rfl, List.map_append]
    rw [List.map_cons, List.nodup_cons] at hpages
    apply List.Nodup.append
    · apply nodup_of_length_le_one
      rw [List.length_map]
      cases c with
      | err p msg => simp [pageOccs]
      | ok p r =>
        simp only [pageOccs]
        split
        · simp
        · rw [List.length_map]
          exact filter_link_length_le_one url hurl r.organic
            (hlinks p r (List.mem_cons_self _ _))
    · exact ih hpages.2 (fun page r hmem =>
        hlinks page r (List.mem_cons.mpr (Or.inr hmem)))
    · intro a ha hb
      have hpage : a = c.pageNum := by
        cases c with
        | err p msg => simp [pageOccs] at ha
        | ok p r =>
          simp only [pageOccs] at ha
          split at ha
          · simp at ha
          · rw [List.map_map, List.mem_map] at ha
            obtain ⟨it, _, heq⟩ := ha
            rw [← heq]
            rfl
      have hmem := occurrences_pages_subset url rest a hb
      rw [hpage] at hmem
      exact hpages.1 hmem

/-- C2, counterexample: the claim asserts `frequency = len(pages_seen)`
for every output record.  If one page's organic list contains the same link
at two ranks (here `"a"` at ranks 1 and 3 on page 1), both sightings append
to `positions` and `pages`, so `frequency = 2` while
`pages_seen = sorted(set(pages)) = [1]` has length 1. -/
theorem C2_duplicate_link_cex :
    ((fetchAllPagesModel 3 [Completion.ok 1 (PageResponse.mk
        [OrganicItem.mk "a" "t" none 1, OrganicItem.mk "a" "t2" none 3]
        true)]).organic.map
      (fun r => (r.frequency, r.pages_seen))) = [(2, [1])] :=
  of_decide_eq_true (by with_unfolding_all rfl)

/-- C2, amended: for every completion list (with a positive
`consecutive_empty_limit`, as validated settings guarantee), every
`OrganicResult` of the produced `SearchResult` satisfies `frequency ≥ 1`,
`len(pages_seen) ≤ frequency`, `pages_seen` strictly ascending (sorted with
unique values), and `best_position ≤ avg_position`; and
`frequency = len(pages_seen)` holds under the additional premises that page
numbers are pairwise distinct across completions and no single page's
organic list repeats a (nonempty) link. -/
theorem C2_organic_invariants :
    ∀ (limit : Nat) (cs : List Completion), 1 ≤ limit →
      (∀ r ∈ (fetchAllPagesModel limit cs).organic,
        1 ≤ r.frequency
        ∧ r.pages_seen.length ≤ r.frequency
        ∧ r.pages_seen.Sorted (· < ·)
        ∧ (r.best_position : ℚ) ≤ r.avg_position)
      ∧ ((cs.map Completion.pageNum).Nodup →
          (∀ (page : Nat) (rp : PageResponse), Completion.ok page rp ∈ cs →
            ((rp.organic.filter (fun it => it.link ≠ "")).map
              (fun it => it.link)).Nodup) →
          ∀ r ∈ (fetchAllPagesModel limit cs).organic,
            r.frequency = r.pages_seen.length) := by
  intro limit cs hlimit
  obtain ⟨n, hn, heq, _, _⟩ := consumeCompletions_prefix limit cs initState
    (by simpa [initState] using hlimit)
  have hwf : WFmap (consumeCompletions limit cs initState).organicByUrl :=
    consumeCompletions_wf limit cs initState
      ⟨by intro e he; simp [initState] at he,
       by simp [initState, mapLinks]⟩
  have hmain : ∀ r ∈ (fetchAllPagesModel limit cs).organic,
      ∃ e, e ∈ (consumeCompletions limit cs initState).organicByUrl ∧
        r = finalizeEntry e ∧ e.link ≠ "" ∧
        e.positions = (occurrences e.link (cs.take n)).map
          (fun o => o.2.rank) ∧
        e.pages = (occurrences e.link (cs.take n)).map (fun o => o.1) ∧
        occurrences e.link (cs.take n) ≠ [] := by
    intro r hr
    have hr2 := (sortByBest_perm _).mem_iff.mp hr
    rw [List.mem_map] at hr2
    obtain ⟨e, he, hre⟩ := hr2
    have hlink : e.link ≠ "" := hwf.1 e he
    have hlook : lookupUrl e.link
        (consumeCompletions limit cs initState).organicByUrl = some e :=
      mem_lookup e _ hwf he
    rw [heq] at hlook
    rw [foldSteps_lookup_init e.link hlink (cs.take n)] at hlook
    obtain ⟨hpos, hpages, _, hne⟩ := entryOf_fields e.link _ e hlook
    exact ⟨e, he, hre.symm, hlink, hpos, hpages, hne⟩
  constructor
  · intro r hr
    obtain ⟨e, _, hre, _, hpos, hpages, hne⟩ := hmain r hr
    have hposne : e.positions ≠ [] := by
      rw [hpos]
      simpa using hne
    have hlen : e.pages.length = e.positions.length := by
      rw [hpos, hpages, List.length_map, List.length_map]
    subst hre
    refine ⟨?_, ?_, ?_, ?_⟩
    · show 1 ≤ e.positions.length
      exact List.length_pos.mpr hposne
    · show (e.pages.dedup.insertionSort (· ≤ ·)).length ≤
        e.positions.length
      rw [(List.perm_insertionSort (· ≤ ·) e.pages.dedup).length_eq,
        ← hlen]
      exact e.pages.dedup_sublist.length_le
    · show (e.pages.dedup.insertionSort (· ≤ ·)).Sorted (· < ·)
      exact List.Sorted.lt_of_le
        (List.sorted_insertionSort (· ≤ ·) e.pages.dedup)
        ((List.perm_insertionSort (· ≤ ·) e.pages.dedup).nodup_iff.mpr
          (List.nodup_dedup e.pages))
    · show (listMinInt e.positions : ℚ) ≤
        pyRound2 ((e.positions.sum : ℚ) / (e.positions.length : ℚ))
      exact best_le_avg e.positions hposne
  · intro hpagesnd hlinksnd r hr
    obtain ⟨e, _, hre, hlink, hpos, hpages, _⟩ := hmain r hr
    have hndpages : e.pages.Nodup := by
      rw [hpages]
      apply occurrences_pages_nodup e.link hlink (cs.take n)
      · rw [List.map_take]
        exact (List.take_sublist n _).nodup hpagesnd
      · intro page rp hmem
        exact hlinksnd page rp (List.take_subset n cs hmem)
    have hlen : e.pages.length = e.positions.length := by
      rw [hpos, hpages, List.length_map, List.length_map]
    subst hre
    show e.positions.length = (e.pages.dedup.insertionSort (· ≤ ·)).length
    rw [(List.perm_insertionSort (· ≤ ·) e.pages.dedup).length_eq,
      List.dedup_eq_self.mpr hndpages, hlen]

/-- C2, witness: the amended invariants applied to a one-page run whose
single organic item `"a"` has rank 1, at the concrete output record. -/
theorem C2_organic_invariants_witness :
    (1 ≤ (OrganicResult.mk "a" "t" none 1 1 1 1 [1]).frequency
      ∧ (OrganicResult.mk "a" "t" none 1 1 1 1 [1]).pages_seen.length ≤
        (OrganicResult.mk "a" "t" none 1 1 1 1 [1]).frequency
      ∧ (OrganicResult.mk "a" "t" none 1 1 1 1 [1]).pages_seen.Sorted
        (· < ·)
      ∧ ((OrganicResult.mk "a" "t" none 1 1 1 1 [1]).best_position : ℚ) ≤
        (OrganicResult.mk "a" "t" none 1 1 1 1 [1]).avg_position)
    ∧ (OrganicResult.mk "a" "t" none 1 1 1 1 [1]).frequency =
      (OrganicResult.mk "a" "t" none 1 1 1 1 [1]).pages_seen.length := by
  have h := C2_organic_invariants 3
    [Completion.ok 1 (PageResponse.mk [OrganicItem.mk "a" "t" none 1]
      true)] (by decide)
  have hmem : OrganicResult.mk "a" "t" none 1 1 1 1 [1] ∈
      (fetchAllPagesModel 3 [Completion.ok 1 (PageResponse.mk
        [OrganicItem.mk "a" "t" none 1] true)]).organic :=
    of_decide_eq_true (by with_unfolding_all rfl)
  refine ⟨h.1 _ hmem, h.2 (by decide) ?_ _ hmem⟩
  intro page rp hmem2
  simp only [List.mem_singleton] at hmem2
  injection hmem2 with hpage hrp
  subst hrp
  decide

/-! ### Completion-order invariance machinery (C1) -/

/-- With only successful nonempty completions, early termination never
fires and the loop is a plain fold. -/
theorem consume_all_nonempty (limit : Nat) (hlimit : 1 ≤ limit) :
    ∀ (cs : List Completion) (s : LoopState),
      (∀ c ∈ cs, okNonempty c) →
      consumeCompletions limit cs s = cs.foldl stepCompletion s := by
  intro cs
  induction cs with
  | nil => intro s _; rfl
  | cons c rest ih =>
    intro s hok
    have hc := hok c (List.mem_cons_self c rest)
    have hzero : (stepCompletion s c).consecutiveEmpty = 0 := by
      cases c with
      | err page msg => exact absurd hc (by simp [okNonempty])
      | ok page r =>
        have hne : r.organic ≠ [] := hc
        unfold stepCompletion
        dsimp only
        rw [if_pos (by simp [PageResponse.truthy, hne]),
          if_neg (by simpa using hne)]
    unfold consumeCompletions
    dsimp only
    rw [if_neg (by omega), ih (stepCompletion s c)
      (fun x hx => hok x (List.mem_cons.mpr (Or.inr hx)))]
    rfl

/-- A URL's occurrence lists across two completion orders are
permutations. -/
theorem occurrences_perm (url : String) {cs1 cs2 : List Completion}
    (h : cs1.Perm cs2) :
    (occurrences url cs1).Perm (occurrences url cs2) :=
  h.flatMap_right (pageOccs url)

/-- `listMinInt` is permutation-invariant on nonempty lists. -/
theorem listMinInt_perm {l1 l2 : List Int} (h : l1.Perm l2)
    (hne : l1 ≠ []) : listMinInt l1 = listMinInt l2 := by
  have hne2 : l2 ≠ [] := by
    intro hc
    subst hc
    exact hne (List.Perm.eq_nil h)
  exact Int.le_antisymm
    (listMinInt_le l1 _ (h.mem_iff.mpr (listMinInt_mem l2 hne2)))
    (listMinInt_le l2 _ (h.mem_iff.mp (listMinInt_mem l1 hne)))

/-- The aggregate fields determined by an occurrence list are
permutation-invariant. -/
theorem aggOfOccs_perm {os1 os2 : List (Nat × OrganicItem)}
    (h : os1.Perm os2) (hne : os1 ≠ []) :
    aggOfOccs os1 = aggOfOccs os2 := by
  have hranks : (os1.map (fun o => o.2.rank)).Perm
      (os2.map (fun o => o.2.rank)) := h.map _
  have hpages : (os1.map (fun o => o.1)).Perm
      (os2.map (fun o => o.1)) := h.map _
  have hranksne : os1.map (fun o => o.2.rank) ≠ [] := by
    simpa using hne
  unfold aggOfOccs
  dsimp only
  refine congrArg₂ Prod.mk ?_ (congrArg₂ Prod.mk ?_
    (congrArg₂ Prod.mk ?_ ?_))
  · exact listMinInt_perm hranks hranksne
  · rw [hranks.sum_eq, hranks.length_eq]
  · exact hranks.length_eq
  · have hperm : (os1.map (fun o => o.1)).dedup.insertionSort (· ≤ ·) ~
        (os2.map (fun o => o.1)).dedup.insertionSort (· ≤ ·) :=
      calc (os1.map (fun o => o.1)).dedup.insertionSort (· ≤ ·)
          ~ (os1.map (fun o => o.1)).dedup :=
            List.perm_insertionSort (· ≤ ·) _
        _ ~ (os2.map (fun o => o.1)).dedup := hpages.dedup
        _ ~ (os2.map (fun o => o.1)).dedup.insertionSort (· ≤ ·) :=
            (List.perm_insertionSort (· ≤ ·) _).symm
    exact List.eq_of_perm_of_sorted hperm
      (List.sorted_insertionSort (· ≤ ·) _)
      (List.sorted_insertionSort (· ≤ ·) _)

/-- The aggregate fields of a finalized entry are those of its occurrence
list. -/
theorem finalize_agg_eq (url : String) (os : List (Nat × OrganicItem))
    (e : MergeEntry) (h : entryOf url os = some e) :
    ((finalizeEntry e).best_position, (finalizeEntry e).avg_position,
      (finalizeEntry e).frequency, (finalizeEntry e).pages_seen) =
      aggOfOccs os := by
  obtain ⟨hpos, hpages, _, _⟩ := entryOf_fields url os e h
  unfold finalizeEntry aggOfOccs
  dsimp only
  rw [hpos, hpages]

/-- Lookup succeeds exactly for the stored links. -/
theorem lookup_isSome_iff (url : String) (m : List MergeEntry) :
    (lookupUrl url m).isSome ↔ url ∈ mapLinks m := by
  unfold lookupUrl mapLinks
  rw [List.find?_isSome, List.mem_map]
  constructor
  · rintro ⟨e, he, hl⟩
    exact ⟨e, he, by simpa using hl⟩
  · rintro ⟨e, he, hl⟩
    exact ⟨e, he, by simpa using hl⟩

/-- `find?` on a unique-key list returns any member holding the key. -/
theorem find?_of_nodup_links (url : String) (o : OrganicResult) :
    ∀ (l : List OrganicResult), (l.map (fun x => x.link)).Nodup →
      o ∈ l → o.link = url →
      l.find? (fun x => x.link = url) = some o := by
  intro l
  induction l with
  | nil => intro _ ho _; simp at ho
  | cons x xs ih =>
    intro hnd ho hol
    rw [List.map_cons, List.nodup_cons] at hnd
    rcases List.mem_cons.mp ho with ho | ho
    · subst ho
      rw [List.find?_cons_of_pos _ (by simpa using hol)]
    · have hx : ¬ (x.link = url) := by
        intro hc
        apply hnd.1
        rw [List.mem_map]
        exact ⟨o, ho, by rw [hol, hc]⟩
      rw [List.find?_cons_of_neg _ (by simpa using hx)]
      exact ih hnd.2 ho hol

/-- `entryOf` is `none` exactly on the empty occurrence list. -/
theorem entryOf_eq_none_iff (url : String) :
    ∀ (os : List (Nat × OrganicItem)), entryOf url os = none ↔ os = [] := by
  intro os
  cases os with
  | nil => simp [entryOf]
  | cons o rest =>
    obtain ⟨p, it⟩ := o
    simp [entryOf]

/-- A nonempty occurrence list determines an entry. -/
theorem entryOf_some_of_ne (url : String) (os : List (Nat × OrganicItem))
    (h : os ≠ []) : ∃ e, entryOf url os = some e := by
  cases os with
  | nil => exact absurd rfl h
  | cons o rest =>
    obtain ⟨p, it⟩ := o
    exact ⟨_, rfl⟩

/-- C1, counterexample: the organic list is not identical across
completion orders.  Two pages carrying single distinct URLs at the same
rank 1 tie on `best_position`; the stable sort breaks the tie by first
insertion, which follows completion order, so the two orders produce
differently ordered organic lists from the same multiset of
`PageResponses`. -/
theorem C1_completion_order_cex :
    ([Completion.ok 1 (PageResponse.mk [OrganicItem.mk "a" "" none 1]
        true),
      Completion.ok 2 (PageResponse.mk [OrganicItem.mk "b" "" none 1]
        true)] : List Completion).Perm
      [Completion.ok 2 (PageResponse.mk [OrganicItem.mk "b" "" none 1]
        true),
       Completion.ok 1 (PageResponse.mk [OrganicItem.mk "a" "" none 1]
        true)]
    ∧ (fetchAllPagesModel 3
        [Completion.ok 1 (PageResponse.mk [OrganicItem.mk "a" "" none 1]
          true),
         Completion.ok 2 (PageResponse.mk [OrganicItem.mk "b" "" none 1]
          true)]).organic.map (fun o => o.link) = ["a", "b"]
    ∧ (fetchAllPagesModel 3
        [Completion.ok 2 (PageResponse.mk [OrganicItem.mk "b" "" none 1]
          true),
         Completion.ok 1 (PageResponse.mk [OrganicItem.mk "a" "" none 1]
          true)]).organic.map (fun o => o.link) = ["b", "a"]
    ∧ (fetchAllPagesModel 3
        [Completion.ok 1 (PageResponse.mk [OrganicItem.mk "a" "" none 1]
          true),
         Completion.ok 2 (PageResponse.mk [OrganicItem.mk "b" "" none 1]
          true)]).organic ≠
      (fetchAllPagesModel 3
        [Completion.ok 2 (PageResponse.mk [OrganicItem.mk "b" "" none 1]
          true),
         Completion.ok 1 (PageResponse.mk [OrganicItem.mk "a" "" none 1]
          true)]).organic := by
  refine ⟨List.Perm.swap _ _ _, ?_, ?_, ?_⟩
  · exact of_decide_eq_true (by with_unfolding_all rfl)
  · exact of_decide_eq_true (by with_unfolding_all rfl)
  · exact of_decide_eq_true (by with_unfolding_all rfl)

/-- C1, amended: for a fixed multiset of successful nonempty-organic page
completions (so early termination cannot fire, and with a positive
`consecutive_empty_limit`), the merge is completion-order invariant up to
tie order: the multiset of output links is the same, and every nonempty
URL receives identical `best_position`, `avg_position`, `frequency` and
`pages_seen`.  The organic *list* itself is not identical in general:
equal `best_position` entries follow first-insertion order, which depends
on completion order (and a URL's first-sight title/description/rank fields
likewise follow the first completion that carried it). -/
theorem C1_merge_order_invariance :
    ∀ (limit : Nat) (cs1 cs2 : List Completion), 1 ≤ limit →
      cs1.Perm cs2 → (∀ c ∈ cs1, okNonempty c) →
      ((fetchAllPagesModel limit cs1).organic.map (fun o => o.link)).Perm
        ((fetchAllPagesModel limit cs2).organic.map (fun o => o.link))
      ∧ (∀ url, url ≠ "" →
          aggregatesOf (fetchAllPagesModel limit cs1) url =
            aggregatesOf (fetchAllPagesModel limit cs2) url) := by
  intro limit cs1 cs2 hlimit hperm hok
  have hok2 : ∀ c ∈ cs2, okNonempty c :=
    fun c hc => hok c (hperm.mem_iff.mpr hc)
  have heq1 : consumeCompletions limit cs1 initState =
      cs1.foldl stepCompletion initState :=
    consume_all_nonempty limit hlimit cs1 initState hok
  have heq2 : consumeCompletions limit cs2 initState =
      cs2.foldl stepCompletion initState :=
    consume_all_nonempty limit hlimit cs2 initState hok2
  have hwf1 : WFmap (consumeCompletions limit cs1 initState).organicByUrl :=
    consumeCompletions_wf limit cs1 initState
      ⟨by intro e he; simp [initState] at he,
       by simp [initState, mapLinks]⟩
  have hwf2 : WFmap (consumeCompletions limit cs2 initState).organicByUrl :=
    consumeCompletions_wf limit cs2 initState
      ⟨by intro e he; simp [initState] at he,
       by simp [initState, mapLinks]⟩
  have hlook1 : ∀ url, url ≠ "" →
      lookupUrl url (consumeCompletions limit cs1 initState).organicByUrl =
        entryOf url (occurrences url cs1) := by
    intro url hurl
    rw [heq1]
    exact foldSteps_lookup_init url hurl cs1
  have hlook2 : ∀ url, url ≠ "" →
      lookupUrl url (consumeCompletions limit cs2 initState).organicByUrl =
        entryOf url (occurrences url cs2) := by
    intro url hurl
    rw [heq2]
    exact foldSteps_lookup_init url hurl cs2
  have hml : ∀ (m : List MergeEntry),
      (m.map finalizeEntry).map (fun o => o.link) = mapLinks m := by
    intro m
    unfold mapLinks
    rw [List.map_map]
    apply List.map_congr_left
    intro e _
    rfl
  have horg1 : ((fetchAllPagesModel limit cs1).organic.map
      (fun o => o.link)).Perm (mapLinks
        (consumeCompletions limit cs1 initState).organicByUrl) := by
    have hp := (sortByBest_perm ((consumeCompletions limit cs1
      initState).organicByUrl.map finalizeEntry)).map (fun o => o.link)
    rw [hml] at hp
    exact hp
  have horg2 : ((fetchAllPagesModel limit cs2).organic.map
      (fun o => o.link)).Perm (mapLinks
        (consumeCompletions limit cs2 initState).organicByUrl) := by
    have hp := (sortByBest_perm ((consumeCompletions limit cs2
      initState).organicByUrl.map finalizeEntry)).map (fun o => o.link)
    rw [hml] at hp
    exact hp
  have hblanknot : ∀ (m : List MergeEntry), WFmap m →
      ("" : String) ∉ mapLinks m := by
    intro m hwf hc
    unfold mapLinks at hc
    rw [List.mem_map] at hc
    obtain ⟨e, he, hl⟩ := hc
    exact hwf.1 e he hl
  have hmemiff : ∀ url,
      url ∈ mapLinks (consumeCompletions limit cs1
        initState).organicByUrl ↔
      url ∈ mapLinks (consumeCompletions limit cs2
        initState).organicByUrl := by
    intro url
    by_cases hurl : url = ""
    · subst hurl
      constructor
      · intro h; exact absurd h (hblanknot _ hwf1)
      · intro h; exact absurd h (hblanknot _ hwf2)
    · rw [← lookup_isSome_iff, ← lookup_isSome_iff, hlook1 url hurl,
        hlook2 url hurl]
      have hoccp := occurrences_perm url hperm
      constructor
      · intro h
        rcases hsome : entryOf url (occurrences url cs2) with _ | e
        · have hocc2 : occurrences url cs2 = [] :=
            (entryOf_eq_none_iff url _).mp hsome
          have hocc1 : occurrences url cs1 = [] := by
            have hlen := hoccp.length_eq
            rw [hocc2] at hlen
            exact List.length_eq_zero.mp hlen
          rw [(entryOf_eq_none_iff url _).mpr hocc1] at h
          simp at h
        · simp
      · intro h
        rcases hsome : entryOf url (occurrences url cs1) with _ | e
        · have hocc1 : occurrences url cs1 = [] :=
            (entryOf_eq_none_iff url _).mp hsome
          have hocc2 : occurrences url cs2 = [] := by
            have hlen := hoccp.length_eq
            rw [hocc1] at hlen
            exact (List.length_eq_zero.mp hlen.symm)
          rw [(entryOf_eq_none_iff url _).mpr hocc2] at h
          simp at h
        · simp
  have hlinks : (mapLinks (consumeCompletions limit cs1
      initState).organicByUrl).Perm (mapLinks (consumeCompletions limit
        cs2 initState).organicByUrl) :=
    (List.perm_ext_iff_of_nodup hwf1.2 hwf2.2).mpr hmemiff
  refine ⟨horg1.trans (hlinks.trans horg2.symm), ?_⟩
  intro url hurl
  have hoccp := occurrences_perm url hperm
  rcases hocc1 : occurrences url cs1 with _ | ⟨o0, rest⟩
  · have hocc2 : occurrences url cs2 = [] := by
      have hlen := hoccp.length_eq
      rw [hocc1] at hlen
      exact List.length_eq_zero.mp hlen.symm
    have hnone1 : lookupUrl url (consumeCompletions limit cs1
        initState).organicByUrl = none := by
      rw [hlook1 url hurl, (entryOf_eq_none_iff url _).mpr hocc1]
    have hnone2 : lookupUrl url (consumeCompletions limit cs2
        initState).organicByUrl = none := by
      rw [hlook2 url hurl, (entryOf_eq_none_iff url _).mpr hocc2]
    have hfind : ∀ (csx : List Completion),
        ((fetchAllPagesModel limit csx).organic.map
          (fun o => o.link)).Perm (mapLinks (consumeCompletions limit csx
            initState).organicByUrl) →
        lookupUrl url (consumeCompletions limit csx
          initState).organicByUrl = none →
        (fetchAllPagesModel limit csx).organic.find?
          (fun x => x.link = url) = none := by
      intro csx horgx hnonex
      rw [List.find?_eq_none]
      intro o ho
      simp only [decide_eq_true_eq]
      intro hol
      have hmem : url ∈ mapLinks (consumeCompletions limit csx
          initState).organicByUrl :=
        horgx.mem_iff.mp (List.mem_map.mpr ⟨o, ho, hol⟩)
      have hs := (lookup_isSome_iff url _).mpr hmem
      rw [hnonex] at hs
      simp at hs
    unfold aggregatesOf
    rw [hfind cs1 horg1 hnone1, hfind cs2 horg2 hnone2]
  · have hne1 : occurrences url cs1 ≠ [] := by rw [hocc1]; simp
    have hne2 : occurrences url cs2 ≠ [] := by
      intro hc
      have hlen := hoccp.length_eq
      rw [hocc1, hc] at hlen
      simp at hlen
    obtain ⟨e1, he1⟩ := entryOf_some_of_ne url _ hne1
    obtain ⟨e2, he2⟩ := entryOf_some_of_ne url _ hne2
    have hl1 : lookupUrl url (consumeCompletions limit cs1
        initState).organicByUrl = some e1 := by
      rw [hlook1 url hurl]; exact he1
    have hl2 : lookupUrl url (consumeCompletions limit cs2
        initState).organicByUrl = some e2 := by
      rw [hlook2 url hurl]; exact he2
    have hm1 : e1 ∈ (consumeCompletions limit cs1
        initState).organicByUrl := List.mem_of_find?_eq_some hl1
    have hm2 : e2 ∈ (consumeCompletions limit cs2
        initState).organicByUrl := List.mem_of_find?_eq_some hl2
    have hfin1 : finalizeEntry e1 ∈ (fetchAllPagesModel limit
        cs1).organic :=
      (sortByBest_perm _).mem_iff.mpr (List.mem_map.mpr ⟨e1, hm1, rfl⟩)
    have hfin2 : finalizeEntry e2 ∈ (fetchAllPagesModel limit
        cs2).organic :=
      (sortByBest_perm _).mem_iff.mpr (List.mem_map.mpr ⟨e2, hm2, rfl⟩)
    have hlinke1 : (finalizeEntry e1).link = url :=
      (entryOf_fields url _ e1 he1).2.2.1
    have hlinke2 : (finalizeEntry e2).link = url :=
      (entryOf_fields url _ e2 he2).2.2.1
    have hfind1 : (fetchAllPagesModel limit cs1).organic.find?
        (fun x => x.link = url) = some (finalizeEntry e1) :=
      find?_of_nodup_links url (finalizeEntry e1) _
        (horg1.nodup_iff.mpr hwf1.2) hfin1 hlinke1
    have hfind2 : (fetchAllPagesModel limit cs2).organic.find?
        (fun x => x.link = url) = some (finalizeEntry e2) :=
      find?_of_nodup_links url (finalizeEntry e2) _
        (horg2.nodup_iff.mpr hwf2.2) hfin2 hlinke2
    unfold aggregatesOf
    rw [hfind1, hfind2, Option.map_some', Option.map_some']
    exact congrArg some ((finalize_agg_eq url _ e1 he1).trans
      ((aggOfOccs_perm hoccp hne1).trans
        (finalize_agg_eq url _ e2 he2).symm))

/-- C1, witness: the amended invariance applied to the two concrete
completion orders of the counterexample pages: the link multisets are
permutations and the aggregates of `"a"` agree. -/
theorem C1_merge_order_invariance_witness :
    ((fetchAllPagesModel 3
        [Completion.ok 1 (PageResponse.mk [OrganicItem.mk "a" "" none 1]
          true),
         Completion.ok 2 (PageResponse.mk [OrganicItem.mk "b" "" none 1]
          true)]).organic.map (fun o => o.link)).Perm
      ((fetchAllPagesModel 3
        [Completion.ok 2 (PageResponse.mk [OrganicItem.mk "b" "" none 1]
          true),
         Completion.ok 1 (PageResponse.mk [OrganicItem.mk "a" "" none 1]
          true)]).organic.map (fun o => o.link))
    ∧ aggregatesOf (fetchAllPagesModel 3
        [Completion.ok 1 (PageResponse.mk [OrganicItem.mk "a" "" none 1]
          true),
         Completion.ok 2 (PageResponse.mk [OrganicItem.mk "b" "" none 1]
          true)]) "a" =
      aggregatesOf (fetchAllPagesModel 3
        [Completion.ok 2 (PageResponse.mk [OrganicItem.mk "b" "" none 1]
          true),
         Completion.ok 1 (PageResponse.mk [OrganicItem.mk "a" "" none 1]
          true)]) "a" := by
  have h := C1_merge_order_invariance 3
    [Completion.ok 1 (PageResponse.mk [OrganicItem.mk "a" "" none 1]
      true),
     Completion.ok 2 (PageResponse.mk [OrganicItem.mk "b" "" none 1]
      true)]
    [Completion.ok 2 (PageResponse.mk [OrganicItem.mk "b" "" none 1]
      true),
     Completion.ok 1 (PageResponse.mk [OrganicItem.mk "a" "" none 1]
      true)]
    (by decide) (List.Perm.swap _ _ _) (by decide)
  exact ⟨h.1, h.2 "a" (by decide)⟩

end Serp
